import Mathlib

/-!
Verification development for the ServerSync repository (Rust).

The development shallowly embeds the synchronization pipeline of
`src/main.rs`, `src/config.rs` and `src/file_system.rs`:

* file contents are abstracted by their UTF-8 classification: a file whose
  bytes are valid UTF-8 is `Content.text s` (carrying its decoded string,
  UTF-8 decoding being injective), any other file is `Content.blob bs`
  (carrying its raw bytes);
* filesystem paths are lists of components (`Path::starts_with`,
  `Path::join`, `Path::ancestors`, `Path::parent` are component-wise in
  Rust, matching `List.isPrefixOf`, `List.append`, iterated
  `List.dropLast`, `List.dropLast`);
* the destination filesystem is an explicit state (`FS`): a set of
  directories plus a map from paths to file contents; every mutating
  syscall performed by the pipeline is additionally recorded in a trace of
  `Op` values so that temporal claims (order of rename/create, scope of
  writes) can be stated;
* external collaborators keep only their contracts: the handlebars
  renderer is a function parameter returning `Option String` (strict-mode
  miss or syntax error = `none`), the `git` subprocess is a `CmdResult`
  (spawn failure or a captured exit status), the OS account database is a
  function record `OsDb`;
* Rust `panic!`/`unwrap` failures are distinguished from propagated
  `anyhow` errors: computations return `PRes`, with a `panicked`
  constructor for aborts and a `failed` constructor for errors that reach
  `main`'s error arm (exit code 1).
-/

namespace ServerSync

/-- Contents of a file, abstracted by UTF-8 classification.  `text s` is a
file whose bytes are valid UTF-8 and decode to `s`; `blob bs` is a file
whose bytes `bs` are not valid UTF-8.  Equality of `Content` values
coincides with equality of the underlying byte strings because UTF-8
encoding is injective and a valid-UTF-8 byte string never equals an
invalid one. -/
inductive Content
  | text (s : String)
  | blob (bs : List Nat)
deriving DecidableEq, Repr

/-- Filesystem path, as its list of components (the representation of an
absolute path; `Path::starts_with` in Rust compares component lists). -/
abbrev FsPath := List String

/-- Mutating filesystem operations performed by the pipeline, recorded in
order.  `createFile` merges Rust `File::create` with the immediately
following `write_all` (the two are adjacent everywhere in the source);
`chmod` records the `set_permissions` plus `set_owner_group` pair done by
`fix_permissions`. -/
inductive Op
  | createDir (p : FsPath)
  | renameFile (src dst : FsPath)
  | createFile (p : FsPath) (c : Content)
  | chmod (p : FsPath)
deriving DecidableEq, Repr

/-- Destination filesystem state: the set of existing directories and the
map from paths to file contents. -/
structure FS where
  dirs : List FsPath
  files : List (FsPath × Content)
deriving DecidableEq, Repr

/-- Lookup in an association list of files (first binding wins). -/
def lookupFile : List (FsPath × Content) → FsPath → Option Content
  | [], _ => none
  | (q, c) :: rest, p => if q = p then some c else lookupFile rest p

/-- Membership test for a list of paths. -/
def memPath : List FsPath → FsPath → Bool
  | [], _ => false
  | q :: rest, p => if q = p then true else memPath rest p

/-- Contents of the file at `p`, if a file exists there. -/
def FS.lookup (fs : FS) (p : FsPath) : Option Content :=
  lookupFile fs.files p

/-- Whether a directory exists at `p`. -/
def FS.isDirB (fs : FS) (p : FsPath) : Bool :=
  memPath fs.dirs p

/-- Rust `Path::exists`: true if either a file or a directory is at `p`. -/
def FS.pathExists (fs : FS) (p : FsPath) : Bool :=
  fs.isDirB p || (fs.lookup p).isSome

/-- Create (or truncate and overwrite) the file at `p` with contents `c`,
the effect of `File::create` + `write_all`. -/
def FS.setFile (fs : FS) (p : FsPath) (c : Content) : FS :=
  { fs with files := (p, c) :: fs.files.filter (fun kv => kv.1 ≠ p) }

/-- Effect of `std::fs::rename src dst` on the file map (`dst` is
atomically replaced if present; renaming a path to itself is a no-op at
the map level). -/
def FS.rename (fs : FS) (src dst : FsPath) : FS :=
  match fs.lookup src with
  | none => fs
  | some c =>
    { fs with
      files := (dst, c) :: fs.files.filter (fun kv => kv.1 ≠ src ∧ kv.1 ≠ dst) }

/-- Effect of `std::fs::create_dir` once it has succeeded. -/
def FS.addDir (fs : FS) (p : FsPath) : FS :=
  { fs with dirs := p :: fs.dirs }

theorem lookupFile_cons (q : FsPath) (c : Content) (rest : List (FsPath × Content))
    (p : FsPath) :
    lookupFile ((q, c) :: rest) p = if q = p then some c else lookupFile rest p := rfl

theorem FS.lookup_setFile_self (fs : FS) (p : FsPath) (c : Content) :
    (fs.setFile p c).lookup p = some c := by
  simp [FS.setFile, FS.lookup, lookupFile]

theorem lookupFile_filter_ne (l : List (FsPath × Content)) (p q : FsPath)
    (hpq : p ≠ q) :
    lookupFile (l.filter (fun kv => kv.1 ≠ q)) p = lookupFile l p := by
  induction l with
  | nil => simp [lookupFile]
  | cons kv rest ih =>
    rw [List.filter_cons]
    simp only [decide_not] at ih ⊢
    by_cases h : kv.1 = q
    · have hne : kv.1 ≠ p := fun hq => hpq (hq ▸ h)
      simp [h, lookupFile, hne, ih, if_neg (Ne.symm hpq)]
    · simp [h, lookupFile, ih]

theorem FS.lookup_setFile_other (fs : FS) (p q : FsPath) (c : Content)
    (h : q ≠ p) :
    (fs.setFile p c).lookup q = fs.lookup q := by
  have hpq : p ≠ q := fun hq => h hq.symm
  simp only [FS.setFile, FS.lookup, lookupFile_cons, if_neg hpq]
  exact lookupFile_filter_ne fs.files q p h

theorem lookupFile_filter_two (l : List (FsPath × Content)) (p q r : FsPath)
    (hpq : p ≠ q) (hpr : p ≠ r) :
    lookupFile (l.filter (fun kv => kv.1 ≠ q ∧ kv.1 ≠ r)) p = lookupFile l p := by
  induction l with
  | nil => simp [lookupFile]
  | cons kv rest ih =>
    rw [List.filter_cons]
    simp only [Bool.decide_and, decide_not] at ih ⊢
    by_cases h : kv.1 = q ∧ kv.1 = r
    · have hne : kv.1 ≠ p := fun hq => hpq (hq ▸ h.1)
      simp [h.1, h.2, lookupFile, hne, ih, if_neg (Ne.symm hpq)]
    · by_cases h1 : kv.1 = q
      · have hne : kv.1 ≠ p := fun hq => hpq (hq ▸ h1)
        simp [h1, lookupFile, if_neg (Ne.symm hpq), ih]
      · by_cases h2 : kv.1 = r
        · have hne : kv.1 ≠ p := fun hq => hpr (hq ▸ h2)
          simp [h1, h2, lookupFile, if_neg (Ne.symm hpr), ih]
        · simp [h1, h2, lookupFile, ih]

theorem FS.lookup_rename_other (fs : FS) (src dst p : FsPath)
    (hs : p ≠ src) (hd : p ≠ dst) :
    (fs.rename src dst).lookup p = fs.lookup p := by
  unfold FS.rename
  cases h : fs.lookup src with
  | none => rfl
  | some c =>
    simp only [FS.lookup, lookupFile_cons, if_neg (Ne.symm hd)]
    exact lookupFile_filter_two fs.files p src dst hs hd

theorem FS.lookup_rename_dst (fs : FS) (src dst : FsPath) (c : Content)
    (h : fs.lookup src = some c) :
    (fs.rename src dst).lookup dst = some c := by
  unfold FS.rename
  rw [h]
  simp [FS.lookup, lookupFile_cons]

theorem FS.dirs_setFile (fs : FS) (p : FsPath) (c : Content) :
    (fs.setFile p c).dirs = fs.dirs := rfl

theorem FS.dirs_rename (fs : FS) (src dst : FsPath) :
    (fs.rename src dst).dirs = fs.dirs := by
  unfold FS.rename
  cases fs.lookup src <;> rfl

theorem FS.files_addDir (fs : FS) (p : FsPath) :
    (fs.addDir p).files = fs.files := rfl

theorem memPath_iff (l : List FsPath) (p : FsPath) :
    memPath l p = true ↔ p ∈ l := by
  induction l with
  | nil => simp [memPath]
  | cons q rest ih =>
    by_cases h : q = p
    · simp [memPath, h]
    · simp [memPath, h, ih, fun hq : p = q => h hq.symm]
      intro hq
      exact absurd hq.symm h

theorem FS.isDirB_addDir_of (fs : FS) (p q : FsPath) (h : fs.isDirB q = true) :
    (fs.addDir p).isDirB q = true := by
  unfold FS.addDir FS.isDirB at *
  simp only [memPath] at *
  by_cases hp : p = q <;> simp [hp, h]

/-! ### Paths: ancestors, prefixes, backup names

`Path::ancestors()` yields the path itself, then each parent in turn up
to the root: on component lists this is `take n, take (n-1), …, take 0`;
note the order is leaf-to-root.  `Path::with_extension("bak")` replaces
the final extension of the last component (or appends `.bak` when the
file name has no extension; a name that is only a leading dot, such as
`.bashrc`, counts as having no extension, mirroring `Path::file_stem`). -/

/-- Rust `Path::ancestors()` on a component list: leaf-to-root. -/
def ancestorChain (p : FsPath) : List FsPath :=
  (List.range (p.length + 1)).reverse.map (fun k => p.take k)

/-- The ancestors that `walk_directory` keeps: those with
`destination_root` as a prefix (`Iterator::filter` with
`starts_with`), still in leaf-to-root order. -/
def ancestorsUnder (root p : FsPath) : List FsPath :=
  (ancestorChain p).filter (fun a => root.isPrefixOf a)

/-- Splitting a string at every occurrence of a separator character,
with Rust `str::split(char)` semantics: `""` yields `[""]`, adjacent
separators yield empty pieces. -/
def splitOnCharAux (sep : Char) : List Char → List Char → List String
  | [], cur => [String.mk cur.reverse]
  | c :: rest, cur =>
    if c = sep then String.mk cur.reverse :: splitOnCharAux sep rest []
    else splitOnCharAux sep rest (c :: cur)

/-- Rust `str::split(sep)` for a character separator. -/
def splitOnChar (sep : Char) (s : String) : List String :=
  splitOnCharAux sep s.data []

/-- Join string pieces with `.` between them. -/
def joinDots : List String → String
  | [] => ""
  | [x] => x
  | x :: rest => x ++ "." ++ joinDots rest

/-- Rust `Path::with_extension("bak")` acting on a single file name. -/
def setExtBak (name : String) : String :=
  match splitOnChar '.' name with
  | [] => name ++ ".bak"
  | [_] => name ++ ".bak"
  | ["", _] => name ++ ".bak"
  | parts => joinDots parts.dropLast ++ ".bak"

/-- Rust `Path::with_extension("bak")` on a component path: rewrites the
final component with `setExtBak`.  On the empty (root) path the result is
the path itself (the pipeline only applies this to destination paths,
which always have a final component). -/
def withExtBak (p : FsPath) : FsPath :=
  match p.reverse with
  | [] => []
  | last :: revInit => revInit.reverse ++ [setExtBak last]

theorem withExtBak_append (root rel : FsPath) (h : rel ≠ []) :
    withExtBak (root ++ rel) = root ++ withExtBak rel := by
  unfold withExtBak
  cases hrel : rel.reverse with
  | nil => exact absurd (List.reverse_eq_nil_iff.mp hrel) h
  | cons last revInit =>
    have : (root ++ rel).reverse = last :: (revInit ++ root.reverse) := by
      rw [List.reverse_append, hrel]; rfl
    rw [this]
    simp

theorem prefix_withExtBak (root rel : FsPath) (h : rel ≠ []) :
    root <+: withExtBak (root ++ rel) := by
  rw [withExtBak_append root rel h]
  exact List.prefix_append root _

theorem isPrefixOf_eq_true_iff (l₁ l₂ : FsPath) :
    l₁.isPrefixOf l₂ = true ↔ l₁ <+: l₂ := by
  exact List.isPrefixOf_iff_prefix

theorem mem_ancestorsUnder_prefix (root p a : FsPath)
    (h : a ∈ ancestorsUnder root p) : root <+: a := by
  unfold ancestorsUnder at h
  have := List.of_mem_filter h
  exact (isPrefixOf_eq_true_iff root a).mp this

/-- Every element of `ancestorChain p` is a `take` of `p`. -/
theorem mem_ancestorChain (p a : FsPath) (h : a ∈ ancestorChain p) :
    ∃ k, k ≤ p.length ∧ a = p.take k := by
  unfold ancestorChain at h
  rw [List.mem_map] at h
  obtain ⟨k, hk, rfl⟩ := h
  rw [List.mem_reverse, List.mem_range] at hk
  exact ⟨k, by omega, rfl⟩

/-- The root itself is among the kept ancestors of any path that extends
it (needed to see that the ancestor loop always runs at least once). -/
theorem root_mem_ancestorsUnder (root rel : FsPath) :
    root ∈ ancestorsUnder root (root ++ rel) := by
  unfold ancestorsUnder ancestorChain
  rw [List.mem_filter]
  constructor
  · rw [List.mem_map]
    refine ⟨root.length, ?_, ?_⟩
    · rw [List.mem_reverse, List.mem_range]
      have := List.length_append root rel
      omega
    · rw [List.take_append_of_le_length (le_refl _), List.take_length]
  · exact (isPrefixOf_eq_true_iff _ _).mpr (List.prefix_refl root)

/-! ### Configuration resolver (`src/config.rs`)

`EnvConf::new` reads the destination, the repository storage path and the
context list; `_get_env` resolves a name through CLI matches, then the
env file, then the process environment (the fourth `var_os` branch of
`_get_env` repeats the third and is collapsed with it).  Clap's own
flag/env/default resolution is the external CLI collaborator: its output
is the `cliArgs` map. -/

/-- Lookup in a `String`-keyed association list. -/
def lookupStr : List (String × String) → String → Option String
  | [], _ => none
  | (k, v) :: rest, key => if k = key then some v else lookupStr rest key

/-- Input to `EnvConf::new`: the parsed CLI matches (with clap defaults
and clap-side env fallbacks already applied), the repeatable `-c`
occurrences, the loaded `.server_env` file (`None` when `EnvFile::new`
failed) and the process environment. -/
structure CliWorld where
  cliArgs : List (String × String)
  cliContexts : Option (List String)
  envFile : Option (List (String × String))
  procEnv : List (String × String)

/-- Components of a path string, mirroring `PathBuf::from` on an absolute
path (empty components collapse, as `/a//b` and `/a/b` do in Rust). -/
def pathComponents (s : String) : FsPath :=
  (splitOnChar '/' s).filter (fun c => c ≠ "")

/-- Embedding of `_get_env` from `src/config.rs`: CLI matches first, then
the env file, then the process environment. -/
def getEnvChain (cliArgs : List (String × String))
    (envFile : Option (List (String × String)))
    (procEnv : List (String × String)) (key : String) : Option String :=
  match lookupStr cliArgs key with
  | some v => some v
  | none =>
    match envFile with
    | some f =>
      match lookupStr f key with
      | some v => some v
      | none => lookupStr procEnv key
    | none => lookupStr procEnv key

/-- Embedding of `ServerContext` from `src/config.rs`. -/
structure ServerContext where
  name : String
  sourceRoot : FsPath
deriving DecidableEq, Repr

/-- Embedding of `ServerContext::new`: `source_root` is
`repo_path/contexts/name`. -/
def serverContextNew (name : String) (repoPath : String) : ServerContext :=
  { name := name, sourceRoot := pathComponents repoPath ++ ["contexts"] ++ pathComponents name }

/-- Embedding of `EnvConf`: the three environment sources it keeps, the
resolved contexts and the destination root. -/
structure EnvConf where
  cliArgs : List (String × String)
  envFile : Option (List (String × String))
  procEnv : List (String × String)
  contexts : List ServerContext
  destRoot : FsPath

/-- Embedding of `EnvConf::get_env`. -/
def EnvConf.getEnv (conf : EnvConf) (key : String) : Option String :=
  getEnvChain conf.cliArgs conf.envFile conf.procEnv key

/-- Insert-or-replace on an association list (`BTreeMap::insert`). -/
def upsert (m : List (String × String)) (k v : String) : List (String × String) :=
  (k, v) :: m.filter (fun kv => kv.1 ≠ k)

/-- Embedding of `EnvConf::get_variables`: the env-file store overridden
by every process-environment variable. -/
def EnvConf.getVariables (conf : EnvConf) : List (String × String) :=
  conf.procEnv.foldl (fun m kv => upsert m kv.1 kv.2)
    (match conf.envFile with
     | none => []
     | some f => f)

/-- Embedding of the context-list resolution inside `EnvConf::new`: CLI
occurrences verbatim when present; otherwise, only when the env file
loaded, the env-file entry (falling back to the process environment)
split on `,` alone; otherwise the empty list. -/
def contextNames (cw : CliWorld) : List String :=
  match cw.cliContexts with
  | some v => v
  | none =>
    match cw.envFile with
    | none => []
    | some f =>
      match
        (match lookupStr f "SERVER_SYNC_CONTEXTS" with
         | some s => some s
         | none => lookupStr cw.procEnv "SERVER_SYNC_CONTEXTS") with
      | some s => splitOnChar ',' s
      | none => []

/-- Embedding of `EnvConf::new`. -/
def envConfNew (cw : CliWorld) : Except String EnvConf :=
  match getEnvChain cw.cliArgs cw.envFile cw.procEnv "SERVER_SYNC_DESTINATION" with
  | none => .error "Get destination for sync"
  | some rawDestination =>
    match getEnvChain cw.cliArgs cw.envFile cw.procEnv "SERVER_SYNC_REPO_STORAGE" with
    | none => .error "Get repository path"
    | some repoPath =>
      let ctxs := (contextNames cw).map (fun n => serverContextNew n repoPath)
      if ctxs.isEmpty then .error "No contexts to sync!"
      else
        .ok { cliArgs := cw.cliArgs, envFile := cw.envFile, procEnv := cw.procEnv,
              contexts := ctxs, destRoot := pathComponents rawDestination }

/-! ### Ownership and permissions (`fix_permissions`, `PermissionManager`)

The OS account database is a record of partial functions.  The
`file_owner` crate resolves names eagerly; `Group::from_gid(n)` performs
no lookup at all — it merely wraps the number `n`. -/

/-- The OS account database: name-to-uid, name-to-gid, and the primary
group of each uid (the last is consulted by no code path; it exists to
state what the spec asks for). -/
structure OsDb where
  userUid : String → Option Nat
  groupGid : String → Option Nat
  primaryGid : Nat → Option Nat

/-- Decimal digits to a number, `none` on a non-digit or an empty run. -/
def digitsToNat : List Char → Nat → Option Nat
  | [], acc => some acc
  | c :: rest, acc =>
    if c.isDigit then digitsToNat rest (acc * 10 + (c.toNat - 48))
    else none

/-- Rust `str::parse::<u32>()` as a partial function: an optional `+`
sign, then at least one decimal digit, value below `2 ^ 32`. -/
def parseU32 (s : String) : Option Nat :=
  match
    (match s.data with
     | '+' :: rest => (if rest.isEmpty then none else digitsToNat rest 0)
     | [] => none
     | l => digitsToNat l 0) with
  | some n => if n < 2 ^ 32 then some n else none
  | none => none

/-- Result of `fix_permissions`: a panic (a failed `unwrap` inside the
owner or group closure), a propagated error, or success carrying the uid
and gid passed to `set_owner_group` (the chmod itself — `0644` for files,
`0755` for directories — is recorded as the `Op.chmod` trace entry by the
callers). -/
inductive FixRes
  | panicked
  | failed (msg : String)
  | applied (uid gid : Nat)
deriving DecidableEq, Repr

/-- Group half of `fix_permissions`: `GID` parsed with a panicking
`unwrap`, else `GROUP` resolved with a panicking `unwrap`, else the
`unwrap_or` fallback `Group::from_gid(owner.id())` — the group whose gid
numerically equals the owner's uid. -/
def fixGroup (conf : EnvConf) (db : OsDb) (uid : Nat) : FixRes :=
  match conf.getEnv "GID" with
  | some s =>
    match parseU32 s with
    | none => .panicked
    | some gid => .applied uid gid
  | none =>
    match conf.getEnv "GROUP" with
    | some g =>
      match db.groupGid g with
      | none => .panicked
      | some gid => .applied uid gid
    | none => .applied uid uid

/-- Embedding of `fix_permissions` from `src/main.rs` (the
ownership-resolution part; `set_permissions`/`set_owner_group` syscall
failures are outside the model).  Owner: `UID` parsed with a panicking
`unwrap`, else `USER` resolved with a panicking `unwrap`, else an error. -/
def fix_permissions (conf : EnvConf) (db : OsDb) : FixRes :=
  match conf.getEnv "UID" with
  | some s =>
    match parseU32 s with
    | none => .panicked
    | some uid => fixGroup conf db uid
  | none =>
    match conf.getEnv "USER" with
    | some user =>
      match db.userUid user with
      | none => .panicked
      | some uid => fixGroup conf db uid
    | none => .failed "Getting UID or USER environment variable"

/-- Modelled from the spec: the group the specification prescribes when
neither `GID` nor `GROUP` is given — "the primary group of the resolved
owner, looked up from the OS account database".  This definition follows
the spec's words (the code has no counterpart: it uses
`Group::from_gid(owner.id())` instead) and exists to be compared with
`fix_permissions`. -/
def specPrimaryGroupOfOwner (db : OsDb) (ownerUid : Nat) : Option Nat :=
  db.primaryGid ownerUid

/-- Group half of `PermissionManager::new`: no panics (failures become
`None` via `.ok()`), and no fallback to the owner. -/
def permGroup (conf : EnvConf) (db : OsDb) (uid : Nat) : Except String (Nat × Nat) :=
  match
    (match conf.getEnv "GID" with
     | some s => parseU32 s
     | none => none) with
  | some gid => .ok (uid, gid)
  | none =>
    match
      (match conf.getEnv "GROUP" with
       | some g => db.groupGid g
       | none => none) with
    | some gid => .ok (uid, gid)
    | none => .error "Get group"

/-- Embedding of `PermissionManager::new` from `src/file_system.rs`
(note: unlike `fix_permissions` it tolerates parse failures via
`.ok()`/`and_then`, has no group fallback, and returns `Err` instead of
panicking; `FileSystem::new` then unwraps that `Err` into a panic). -/
def permissionManagerNew (conf : EnvConf) (db : OsDb) : Except String (Nat × Nat) :=
  match
    (match conf.getEnv "UID" with
     | some s => parseU32 s
     | none => none) with
  | some uid => permGroup conf db uid
  | none =>
    match
      (match conf.getEnv "USER" with
       | some u => db.userUid u
       | none => none) with
    | some uid => permGroup conf db uid
    | none => .error "Get owner"

/-! ### Repository fetcher (`git_output`, `sync_repository`)

`Command::output()` returns `Err` only when the subprocess cannot be
spawned; when the binary runs, its exit status and stdout are returned in
an `Ok(Output)`.  `git_output` traces the stdout and returns `Ok(())`
without inspecting `output.status`. -/

/-- Outcome of one `git` subprocess: either the spawn failed, or the
binary ran to completion with an exit code and captured stdout. -/
inductive CmdResult
  | spawnErr (msg : String)
  | ran (exitCode : Nat) (stdout : String)
deriving DecidableEq, Repr

/-- Embedding of `git_output`: an error only on spawn failure; a run that
completed is `Ok` regardless of its exit code. -/
def git_output (r : CmdResult) (context : String) : Except String Unit :=
  match r with
  | .spawnErr _ => .error context
  | .ran _ _ => .ok ()

/-- The external state `sync_repository` interacts with: whether
`repo_storage` already exists, and the outcome each of the three `git`
invocations would have. -/
structure GitWorld where
  repoDirExists : Bool
  cloneRes : CmdResult
  pullRes : CmdResult
  checkoutRes : CmdResult

/-- Result of `sync_repository`: panicked (the `unwrap` on
`SERVER_SYNC_REPO`), failed (a propagated `git_output` error), or ok. -/
inductive GitRes
  | panicked
  | failed (msg : String)
  | ok
deriving DecidableEq, Repr

/-- Embedding of `sync_repository`: unwrap the repo URL (panicking when
absent), default the branch to `master`, clone or pull depending on
whether the storage directory exists, then checkout. -/
def sync_repository (conf : EnvConf) (gw : GitWorld) : GitRes :=
  match conf.getEnv "SERVER_SYNC_REPO" with
  | none => .panicked
  | some _ =>
    match
      (if gw.repoDirExists then git_output gw.pullRes "Update repository"
       else git_output gw.cloneRes "Clone repository") with
    | .error m => .failed m
    | .ok () =>
      match git_output gw.checkoutRes "Checkout branch" with
      | .error m => .failed m
      | .ok () => .ok

/-! ### Pipeline state and per-file processing (`walk_directory`)

An `Entry` is one record yielded by the enumerator (WalkDir filtered to
plain files): its path relative to the context root, the source bytes
(abstracted as `Content`), and whether reading it back fails
(`readErr`, the case where `get_contents`'s `unwrap`s panic).  Results
carry the trace of destination-filesystem operations performed so far,
also on the panic and error paths (the operations had already happened
when the run aborted). -/

/-- One file yielded by the enumerator for a context. -/
structure Entry where
  rel : FsPath
  content : Content
  readErr : Bool
deriving DecidableEq, Repr

/-- A context as the driver sees it: its name, whether its source root
exists and is a directory, and the files the enumerator yields for it. -/
structure CtxRun where
  name : String
  rootOk : Bool
  entries : List Entry

/-- The external collaborators of the pipeline: the template engine
(strict mode and disabled escaping baked in; `none` is a strict-mode
variable miss or a template syntax error) and the OS account database. -/
structure World where
  render : String → List (String × String) → Option String
  db : OsDb

/-- Result of a pipeline computation: a Rust panic, a propagated
`anyhow` error, or success, each carrying the trace of destination
mutations performed up to that point. -/
inductive PRes (α : Type)
  | panicked (tr : List Op)
  | failed (msg : String) (tr : List Op)
  | done (a : α) (tr : List Op)

/-- Result of `get_contents`: panic (the `unwrap`s on `File::open` /
`read_to_end`), or the UTF-8 classification of the bytes. -/
inductive GetRes
  | panicked
  | ok (utf8 : Option String)
deriving DecidableEq, Repr

/-- Embedding of `get_contents`: panics when the source cannot be read;
otherwise `Some` of the decoded text for valid UTF-8, `None` for opaque
bytes. -/
def get_contents (e : Entry) : GetRes :=
  if e.readErr then .panicked
  else
    match e.content with
    | .text s => .ok (some s)
    | .blob _ => .ok none

/-- Embedding of `render_entry`: the variable map is a copy of
`conf.get_variables()` with `server_name` bound to the context's name;
the template (registered under the entry's basename and rendered at
once) is expanded by the external engine. -/
def render_entry (w : World) (conf : EnvConf) (ctxName : String)
    (contents : String) : Option String :=
  w.render contents (upsert conf.getVariables "server_name" ctxName)

/-- Result of `check_existing`: panic (the destination exists but
`get_contents`'s `unwrap` fails on it, e.g. it is a directory), or a
verdict `upToDate` together with the possibly-backed-up filesystem and
the trace. -/
inductive CheckRes
  | panicked
  | ok (upToDate : Bool) (fs : FS) (tr : List Op)

/-- Embedding of `check_existing`: missing destination means not up to
date with no backup; an existing destination whose bytes are not valid
UTF-8 also returns `Ok(false)` without any backup; an existing text
destination is compared line-wise (`diff.ratio() == 1.0` holds exactly
when the strings are equal) and, when different, renamed to its backup
path before the caller rewrites it. -/
def check_existing (fs : FS) (destination : FsPath) (rendered : String) : CheckRes :=
  if fs.isDirB destination then .panicked
  else
    match fs.lookup destination with
    | none => .ok false fs []
    | some (.blob _) => .ok false fs []
    | some (.text existing) =>
      if existing = rendered then .ok true fs []
      else
        .ok false (fs.rename destination (withExtBak destination))
          [Op.renameFile destination (withExtBak destination)]

/-- Append the `fix_permissions` call that ends each reconciliation (and
each ancestor-directory visit): its chmod+chown is recorded as one
`Op.chmod`. -/
def applyPerms (conf : EnvConf) (db : OsDb) (fs : FS) (path : FsPath)
    (tr : List Op) : PRes FS :=
  match fix_permissions conf db with
  | .panicked => .panicked tr
  | .failed m => .failed m tr
  | .applied _ _ => .done fs (tr ++ [Op.chmod path])

/-- Sequencing of pipeline results: propagate a panic or error with its
trace, continue on success (this is Rust `?` with the trace made
explicit). -/
def pbind {α β : Type} (r : PRes α) (k : α → List Op → PRes β) : PRes β :=
  match r with
  | .panicked tr => .panicked tr
  | .failed m tr => .failed m tr
  | .done a tr => k a tr

/-- Prepend an already-performed trace onto a result's trace. -/
def padd (tr : List Op) {α : Type} : PRes α → PRes α
  | .panicked tr2 => .panicked (tr ++ tr2)
  | .failed m tr2 => .failed m (tr ++ tr2)
  | .done a tr2 => .done a (tr ++ tr2)

@[simp] theorem pbind_panicked {α β : Type} (tr : List Op) (k : α → List Op → PRes β) :
    pbind (.panicked tr) k = .panicked tr := rfl

@[simp] theorem pbind_failed {α β : Type} (m : String) (tr : List Op)
    (k : α → List Op → PRes β) : pbind (.failed m tr) k = .failed m tr := rfl

@[simp] theorem pbind_done {α β : Type} (a : α) (tr : List Op)
    (k : α → List Op → PRes β) : pbind (.done a tr) k = k a tr := rfl

@[simp] theorem padd_panicked {α : Type} (tr tr2 : List Op) :
    padd tr (.panicked tr2 : PRes α) = .panicked (tr ++ tr2) := rfl

@[simp] theorem padd_failed {α : Type} (m : String) (tr tr2 : List Op) :
    padd tr (.failed m tr2 : PRes α) = .failed m (tr ++ tr2) := rfl

@[simp] theorem padd_done {α : Type} (a : α) (tr tr2 : List Op) :
    padd tr (.done a tr2 : PRes α) = .done a (tr ++ tr2) := rfl

/-- The ancestor loop of `walk_directory`: for each kept ancestor in the
order produced by `Path::ancestors()` (leaf-to-root), create it with the
non-recursive `create_dir` when it does not exist — which fails unless
its parent is already a directory — then apply permissions. -/
def processAncestors (conf : EnvConf) (db : OsDb) (fs : FS) :
    List FsPath → PRes FS
  | [] => .done fs []
  | a :: rest =>
    pbind
      (if fs.pathExists a then PRes.done fs ([] : List Op)
       else if fs.isDirB a.dropLast then PRes.done (fs.addDir a) [Op.createDir a]
       else PRes.failed "Create ancestor directory" [])
      (fun fs1 tr1 =>
        pbind (applyPerms conf db fs1 a tr1)
          (fun fs2 tr2 => padd tr2 (processAncestors conf db fs2 rest)))

/-- The destination path of an entry:
`destination_root.join(relative_path)`. -/
def destOf (conf : EnvConf) (e : Entry) : FsPath :=
  conf.destRoot ++ e.rel

/-- One iteration of the first loop of `walk_directory`: ensure ancestor
directories, classify the source, defer non-UTF-8 files (returning the
pushed pair), and for text files render, compare/backup, write when
needed, and normalize permissions. -/
def walkStep (w : World) (conf : EnvConf) (ctxName : String) (fs : FS)
    (e : Entry) : PRes (FS × Option (Content × FsPath)) :=
  pbind (processAncestors conf w.db fs (ancestorsUnder conf.destRoot (destOf conf e).dropLast))
    (fun fs1 tr =>
      match get_contents e with
      | .panicked => .panicked tr
      | .ok none => .done (fs1, some (e.content, (destOf conf e))) tr
      | .ok (some contents) =>
        match render_entry w conf ctxName contents with
        | none => .failed "Render source" tr
        | some rendered =>
          match check_existing fs1 (destOf conf e) rendered with
          | .panicked => .panicked tr
          | .ok upToDate fs2 ctr =>
            if upToDate then
              pbind (applyPerms conf w.db fs2 (destOf conf e) (tr ++ ctr))
                (fun fs3 tr2 => .done (fs3, none) tr2)
            else
              pbind
                (applyPerms conf w.db (fs2.setFile (destOf conf e) (.text rendered)) (destOf conf e)
                  (tr ++ ctr ++ [Op.createFile (destOf conf e) (.text rendered)]))
                (fun fs3 tr2 => .done (fs3, none) tr2))

/-- The first loop of `walk_directory` over all entries of a context,
collecting the deferred non-UTF-8 files in order. -/
def phase1 (w : World) (conf : EnvConf) (ctxName : String) (fs : FS) :
    List Entry → PRes (FS × List (Content × FsPath))
  | [] => .done (fs, []) []
  | e :: rest =>
    pbind (walkStep w conf ctxName fs e)
      (fun a tr => padd tr
        (pbind (phase1 w conf ctxName a.1 rest)
          (fun b tr2 => .done (b.1, a.2.toList ++ b.2) tr2)))

/-- One iteration of the second (non-UTF-8) loop of `walk_directory`:
re-read the source bytes, compare with the existing destination bytes,
skip silently when equal, otherwise back up (when the destination
exists) and rewrite, then normalize permissions.  Note the `continue` on
equality skips `fix_permissions` too. -/
def blobStep (w : World) (conf : EnvConf) (fs : FS)
    (bc : Content × FsPath) : PRes FS :=
  match fs.lookup bc.2 with
  | some existing =>
    if existing = bc.1 then .done fs []
    else
      applyPerms conf w.db ((fs.rename bc.2 (withExtBak bc.2)).setFile bc.2 bc.1) bc.2
        [Op.renameFile bc.2 (withExtBak bc.2), Op.createFile bc.2 bc.1]
  | none =>
    applyPerms conf w.db (fs.setFile bc.2 bc.1) bc.2 [Op.createFile bc.2 bc.1]

/-- The second loop of `walk_directory`. -/
def phase2 (w : World) (conf : EnvConf) (fs : FS) :
    List (Content × FsPath) → PRes FS
  | [] => .done fs []
  | bc :: rest =>
    pbind (blobStep w conf fs bc)
      (fun fs1 tr => padd tr (phase2 w conf fs1 rest))

/-- Embedding of `walk_directory` for one context: the text/deferral
loop followed by the non-UTF-8 loop. -/
def walk_directory (w : World) (conf : EnvConf) (c : CtxRun) (fs : FS) : PRes FS :=
  pbind (phase1 w conf c.name fs c.entries)
    (fun a tr => padd tr (phase2 w conf a.1 a.2))

/-- The context loop of `run`: check each source root, then walk it. -/
def runContexts (w : World) (conf : EnvConf) (fs : FS) : List CtxRun → PRes FS
  | [] => .done fs []
  | c :: rest =>
    if c.rootOk then
      pbind (walk_directory w conf c fs)
        (fun fs1 tr => padd tr (runContexts w conf fs1 rest))
    else .failed "Server source root missing or not a directory" []

/-- Embedding of `run`: resolve the repository storage path, fetch the
repository, then process every context in order (`new_handlerbars` and
the no-op `FileSystem::sync` always succeed). -/
def run (w : World) (conf : EnvConf) (gw : GitWorld) (ctxs : List CtxRun)
    (fs : FS) : PRes FS :=
  match conf.getEnv "SERVER_SYNC_REPO_STORAGE" with
  | none => .failed "Get repo storage location" []
  | some _ =>
    match sync_repository conf gw with
    | .panicked => .panicked []
    | .failed m => .failed m []
    | .ok => runContexts w conf fs ctxs

/-! ### Driver (`main` after the early return, and `main` itself) -/

/-- Embedding of `FileSystem::new` as its panic behaviour: it unwraps
the repo URL, eagerly reads every source file of every context
(`File::new(...).unwrap()`, so an unreadable source panics before `run`
starts), and unwraps `PermissionManager::new`.  It performs no
destination write.  `true` means construction completed. -/
def fileSystemNew (conf : EnvConf) (db : OsDb)
    (src : String → Bool × List Entry) : Bool :=
  (conf.getEnv "SERVER_SYNC_REPO").isSome
    && conf.contexts.all (fun sc => ((src sc.name).2.all (fun e => !e.readErr)))
    && (permissionManagerNew conf db).isOk

/-- The contexts the driver walks, pairing each configured context name
with what the enumerator finds at its source root. -/
def mkCtxRuns (conf : EnvConf) (src : String → Bool × List Entry) : List CtxRun :=
  conf.contexts.map (fun sc => { name := sc.name, rootOk := (src sc.name).1,
                                 entries := (src sc.name).2 })

/-- Terminal outcome of the process: a panic, or an exit code together
with the trace of destination mutations. -/
inductive MainOutcome
  | panicked
  | exited (code : Nat) (tr : List Op)

/-- Embedding of the pipeline part of `main` (`src/main.rs:87-106`, the
code after the early return): config failure exits 19 before any write;
then `FileSystem::new`; then `run`, whose error arm exits 1 and whose
success arm exits 0. -/
def mainPipeline (cw : CliWorld) (w : World) (gw : GitWorld)
    (src : String → Bool × List Entry) (fs : FS) : MainOutcome :=
  match envConfNew cw with
  | .error _ => .exited 19 []
  | .ok conf =>
    if fileSystemNew conf w.db src then
      match run w conf gw (mkCtxRuns conf src) fs with
      | .panicked _ => .panicked
      | .failed _ tr => .exited 1 tr
      | .done _ tr => .exited 0 tr
    else .panicked

/-- Embedding of `main` (`src/main.rs:81-107`): it parses the CLI,
starts the logger (which succeeds on the first initialization), runs the
hard-coded YAML-merge demo `this()` — console output only — and then
executes `return;` at line 85.  The configuration resolution,
`FileSystem::new` and `run` (that is, `mainPipeline`) sit after that
`return` and are unreachable, so the process performs no filesystem
read or write under any destination and exits 0. -/
def mainEntry (_cw : CliWorld) (_w : World) (_gw : GitWorld)
    (_src : String → Bool × List Entry) (_fs : FS) : MainOutcome :=
  .exited 0 []

/-! ### Embedding of `FileSystem::ensure_dirs` (dead code, cited by the
spec's ancestor-creation step) -/

/-- The loop body of `FileSystem::ensure_dirs`: iterate the ancestors of
`path` — `Path::ancestors()` order, leaf-to-root — skipping those not
under the destination root and those that already exist, creating the
rest one level at a time (`create_dir`, which fails unless the parent is
already a directory); each created directory then gets permissions
applied (modeled as succeeding).  No live code path invokes it
(`FileSystem::sync` is commented out); the live ancestor loop is the one
inside `walk_directory`. -/
def ensureDirsLoop (destRoot : FsPath) (fs : FS) : List FsPath → Except String FS
  | [] => .ok fs
  | a :: rest =>
    if ¬ (destRoot.isPrefixOf a) then ensureDirsLoop destRoot fs rest
    else if fs.pathExists a then ensureDirsLoop destRoot fs rest
    else if fs.isDirB a.dropLast then ensureDirsLoop destRoot (fs.addDir a) rest
    else .error "Create ancestor directory"

/-- Embedding of `FileSystem::ensure_dirs`. -/
def ensure_dirs (destRoot : FsPath) (fs : FS) (path : FsPath) : Except String FS :=
  ensureDirsLoop destRoot fs (ancestorChain path)

/-! ### Concrete worlds used by witnesses and counterexamples -/

/-- An OS account database with one user `alice` (uid 1000) whose
primary group is 2000. -/
def demoDb : OsDb :=
  { userUid := fun n => if n = "alice" then some 1000 else none,
    groupGid := fun _ => none,
    primaryGid := fun u => if u = 1000 then some 2000 else none }

/-- A template engine that expands every template to itself (no
variables referenced, so strict mode never fires). -/
def demoWorld : World :=
  { render := fun s _ => some s, db := demoDb }

/-- A template engine for which the template `bad` hits a strict-mode
miss and everything else renders to itself. -/
def failWorld : World :=
  { render := fun s _ => if s = "bad" then none else some s, db := demoDb }

/-- A settings snapshot with destination `/dst`, a resolvable repository
and storage path, and `UID=0` so that `fix_permissions` succeeds. -/
def demoConf : EnvConf :=
  { cliArgs := [("SERVER_SYNC_REPO_STORAGE", "/tmp/server-sync/"),
                ("SERVER_SYNC_REPO", "https://example.test/repo.git")],
    envFile := none,
    procEnv := [("UID", "0")],
    contexts := [serverContextNew "web" "/tmp/server-sync/"],
    destRoot := ["dst"] }

/-- A git world whose three sub-steps all run and exit 0. -/
def demoGit : GitWorld :=
  { repoDirExists := false, cloneRes := .ran 0 "", pullRes := .ran 0 "",
    checkoutRes := .ran 0 "" }

/-- A git world whose clone runs but exits nonzero. -/
def cloneFailedGit : GitWorld :=
  { repoDirExists := false, cloneRes := .ran 1 "fatal: repository not found",
    pullRes := .ran 0 "", checkoutRes := .ran 0 "" }

/-- A git world whose clone cannot even be spawned. -/
def spawnFailedGit : GitWorld :=
  { repoDirExists := false, cloneRes := .spawnErr "git binary not on PATH",
    pullRes := .ran 0 "", checkoutRes := .ran 0 "" }

/-- An initially empty destination: only `/` and `/dst` exist, as
directories. -/
def demoFS : FS := { dirs := [[], ["dst"]], files := [] }

/-- One context containing the single text file `f.txt`. -/
def demoCtxs : List CtxRun :=
  [{ name := "web", rootOk := true,
     entries := [{ rel := ["f.txt"], content := .text "x", readErr := false }] }]

/-! ### C1 -/

/-- C1: for every command-line input, environment, git world, source
tree and destination filesystem, `main` runs the hard-coded YAML-merge
demo `this()` and then returns at `src/main.rs:85`, before the
configuration resolution, fetch and context processing embedded in
`mainPipeline`: the trace of filesystem operations is empty (so nothing
under `destination_root` is read or written) and the process exits 0. -/
theorem c1_main_runs_demo_then_returns (cw : CliWorld) (w : World) (gw : GitWorld)
    (src : String → Bool × List Entry) (fs : FS) :
    mainEntry cw w gw src fs = .exited 0 [] := rfl

/-! ### C4 -/

/-- C4 counterexample: the clone sub-step runs and exits 1, yet
`sync_repository` reports success — `git_output` never consults the exit
status — and the run proceeds to mutate the destination (it creates
`/dst/f.txt`).  The claim, which says a non-zero sub-step exit fails the
fetch and aborts the run before any destination mutation, is false. -/
theorem c4_nonzero_git_exit_ignored :
    cloneFailedGit.cloneRes = .ran 1 "fatal: repository not found" ∧
    sync_repository demoConf cloneFailedGit = .ok ∧
    run demoWorld demoConf cloneFailedGit demoCtxs demoFS =
      .done (demoFS.setFile ["dst", "f.txt"] (.text "x"))
        [Op.chmod ["dst"], Op.createFile ["dst", "f.txt"] (.text "x"),
         Op.chmod ["dst", "f.txt"]] :=
  ⟨rfl, rfl, rfl⟩

/-- C4 (amended): the only git failure `git_output` can report is a
spawn failure of the subprocess itself; when the clone cannot be
spawned, the fetch fails and the run aborts with an empty trace — before
the reconciler mutates any destination file.  A sub-step that runs and
exits non-zero is not detected (see the counterexample). -/
theorem c4_spawn_failure_aborts_run (w : World) (conf : EnvConf) (gw : GitWorld)
    (ctxs : List CtxRun) (fs : FS) (u st m : String)
    (hurl : conf.getEnv "SERVER_SYNC_REPO" = some u)
    (hst : conf.getEnv "SERVER_SYNC_REPO_STORAGE" = some st)
    (hdir : gw.repoDirExists = false)
    (hclone : gw.cloneRes = .spawnErr m) :
    run w conf gw ctxs fs = .failed "Clone repository" [] := by
  unfold run
  rw [hst]
  unfold sync_repository
  rw [hurl, hdir, hclone]
  rfl

/-- Witness for C4 (amended) at a concrete world: the clone spawn fails,
the run aborts with the fetch error and an empty trace. -/
theorem c4_spawn_failure_aborts_run_witness :
    run demoWorld demoConf spawnFailedGit demoCtxs demoFS =
      .failed "Clone repository" [] :=
  c4_spawn_failure_aborts_run demoWorld demoConf spawnFailedGit demoCtxs demoFS
    "https://example.test/repo.git" "/tmp/server-sync/" "git binary not on PATH"
    rfl rfl rfl rfl

/-! ### C7 -/

/-- Strip leading and trailing whitespace from a string. -/
def trimChars (s : String) : String :=
  String.mk (((s.data.dropWhile Char.isWhitespace).reverse.dropWhile Char.isWhitespace).reverse)

/-- Modelled from the spec: context-list parsing as the specification
words it — both `,` and `;` accepted as separators, whitespace stripped
around each name, empty names rejected.  Exists to be compared with the
code's parsing inside `EnvConf::new`. -/
def specParseContexts (s : String) : List String :=
  (((splitOnChar ',' s).foldr (fun t acc => splitOnChar ';' t ++ acc) []).map
    (fun t => trimChars t)).filter (fun t => t ≠ "")

/-- A CLI world whose contexts come from the env file as the delimited
string `a; b`. -/
def semiCliWorld : CliWorld :=
  { cliArgs := [("SERVER_SYNC_DESTINATION", "/dst"),
                ("SERVER_SYNC_REPO_STORAGE", "/tmp/server-sync/")],
    cliContexts := none,
    envFile := some [("SERVER_SYNC_CONTEXTS", "a; b")],
    procEnv := [] }

/-- C7 counterexample: parsing the delimited string `a; b`, the code
produces the single context named `a; b` — the semicolon is not a
separator and whitespace is not stripped — whereas the parse the claim
describes produces the two names `a` and `b`. -/
theorem c7_semicolon_not_accepted :
    (envConfNew semiCliWorld).toOption.map (fun c => c.contexts.map (fun sc => sc.name)) =
      some ["a; b"] ∧
    specParseContexts "a; b" = ["a", "b"] := by
  constructor
  · rfl
  · rfl

/-- Splitting never yields the empty list (even `""` gives `[""]`). -/
theorem splitOnCharAux_ne_nil (sep : Char) (l cur : List Char) :
    splitOnCharAux sep l cur ≠ [] := by
  induction l generalizing cur with
  | nil => simp [splitOnCharAux]
  | cons c rest ih =>
    unfold splitOnCharAux
    by_cases h : c = sep
    · simp [h]
    · simp only [h, if_neg h]
      exact ih (c :: cur)

/-- A successful `EnvConf::new`, characterized: destination and storage
resolvable, contexts as parsed, destination root from the raw string. -/
theorem envConfNew_ok (cw : CliWorld) (d rp : String)
    (hd : getEnvChain cw.cliArgs cw.envFile cw.procEnv "SERVER_SYNC_DESTINATION" = some d)
    (hrp : getEnvChain cw.cliArgs cw.envFile cw.procEnv "SERVER_SYNC_REPO_STORAGE" = some rp)
    (hne : contextNames cw ≠ []) :
    envConfNew cw =
      .ok { cliArgs := cw.cliArgs, envFile := cw.envFile, procEnv := cw.procEnv,
            contexts := (contextNames cw).map (fun n => serverContextNew n rp),
            destRoot := pathComponents d } := by
  unfold envConfNew
  rw [hd, hrp]
  have hempty : ((contextNames cw).map (fun n => serverContextNew n rp)).isEmpty = false := by
    cases h : contextNames cw with
    | nil => exact absurd h hne
    | cons a l => rfl
  simp [hempty]

/-- C7 (amended): when the context list comes from the env file (or the
process environment), it is split on `,` alone — `;` is not a separator,
whitespace is kept and empty names are kept; CLI occurrences are taken
verbatim.  If no contexts are resolvable the run still fails before any
filesystem write, with the config error exiting 19 and an empty trace. -/
theorem c7_contexts_split_on_comma_only :
    (∀ (cw : CliWorld) (f : List (String × String)) (s d rp : String),
      cw.cliContexts = none →
      cw.envFile = some f →
      lookupStr f "SERVER_SYNC_CONTEXTS" = some s →
      getEnvChain cw.cliArgs cw.envFile cw.procEnv "SERVER_SYNC_DESTINATION" = some d →
      getEnvChain cw.cliArgs cw.envFile cw.procEnv "SERVER_SYNC_REPO_STORAGE" = some rp →
      ∃ conf, envConfNew cw = .ok conf ∧
        conf.contexts.map (fun sc => sc.name) = splitOnChar ',' s) ∧
    (∀ (cw : CliWorld) (w : World) (gw : GitWorld)
        (src : String → Bool × List Entry) (fs : FS) (d rp : String),
      cw.cliContexts = none →
      cw.envFile = none →
      getEnvChain cw.cliArgs cw.envFile cw.procEnv "SERVER_SYNC_DESTINATION" = some d →
      getEnvChain cw.cliArgs cw.envFile cw.procEnv "SERVER_SYNC_REPO_STORAGE" = some rp →
      envConfNew cw = .error "No contexts to sync!" ∧
      mainPipeline cw w gw src fs = .exited 19 []) := by
  constructor
  · intro cw f s d rp hcli henv hlook hd hrp
    obtain ⟨cargs, cctx, cenv, cproc⟩ := cw
    simp only at hcli henv hd hrp
    subst hcli
    subst henv
    have hnames : contextNames ⟨cargs, none, some f, cproc⟩ = splitOnChar ',' s := by
      simp only [contextNames]
      rw [hlook]
    refine ⟨_, envConfNew_ok _ d rp hd hrp ?_, ?_⟩
    · rw [hnames]
      exact splitOnCharAux_ne_nil ',' s.data []
    · rw [hnames, List.map_map]
      have hcomp : ((fun sc : ServerContext => sc.name) ∘ fun n => serverContextNew n rp) = id := by
        funext n
        rfl
      rw [hcomp, List.map_id]
  · intro cw w gw src fs d rp hcli henv hd hrp
    obtain ⟨cargs, cctx, cenv, cproc⟩ := cw
    simp only at hcli henv hd hrp
    subst hcli
    subst henv
    have hnames : contextNames ⟨cargs, none, none, cproc⟩ = [] := by
      simp only [contextNames]
    have herr : envConfNew ⟨cargs, none, none, cproc⟩ = .error "No contexts to sync!" := by
      unfold envConfNew
      rw [hd, hrp, hnames]
      rfl
    refine ⟨herr, ?_⟩
    unfold mainPipeline
    rw [herr]

/-- Witness for C7 (amended): both halves applied at concrete worlds —
the env-file string `a; b` resolves to the single name `a; b`, and a
world with no env file and no CLI contexts exits 19 with no writes. -/
theorem c7_contexts_split_on_comma_only_witness :
    (∃ conf, envConfNew semiCliWorld = .ok conf ∧
      conf.contexts.map (fun sc => sc.name) = splitOnChar ',' "a; b") ∧
    mainPipeline
      { cliArgs := [("SERVER_SYNC_DESTINATION", "/dst"),
                    ("SERVER_SYNC_REPO_STORAGE", "/tmp/server-sync/")],
        cliContexts := none, envFile := none, procEnv := [] }
      demoWorld demoGit (fun _ => (true, [])) demoFS = .exited 19 [] := by
  constructor
  · exact c7_contexts_split_on_comma_only.1 semiCliWorld
      [("SERVER_SYNC_CONTEXTS", "a; b")] "a; b" "/dst" "/tmp/server-sync/"
      rfl rfl rfl rfl rfl
  · exact (c7_contexts_split_on_comma_only.2
      { cliArgs := [("SERVER_SYNC_DESTINATION", "/dst"),
                    ("SERVER_SYNC_REPO_STORAGE", "/tmp/server-sync/")],
        cliContexts := none, envFile := none, procEnv := [] }
      demoWorld demoGit (fun _ => (true, [])) demoFS "/dst" "/tmp/server-sync/"
      rfl rfl rfl rfl).2

/-! ### C8 -/

/-- A settings snapshot whose only identity information is
`USER=alice`: no `UID`, no `GID`, no `GROUP`. -/
def aliceConf : EnvConf :=
  { cliArgs := [], envFile := none, procEnv := [("USER", "alice")],
    contexts := [serverContextNew "web" "/tmp/server-sync/"],
    destRoot := ["dst"] }

/-- C8 counterexample: the owner resolves to uid 1000 (user `alice`),
whose primary group in the account database is 2000; with no group
specified the code applies gid 1000 — `Group::from_gid(owner.id())`, the
group whose gid numerically equals the owner's uid — not the primary
group 2000 the claim describes. -/
theorem c8_group_fallback_is_uid_not_primary_group :
    fix_permissions aliceConf demoDb = .applied 1000 1000 ∧
    specPrimaryGroupOfOwner demoDb 1000 = some 2000 ∧
    (1000 : Nat) ≠ 2000 :=
  ⟨rfl, rfl, by decide⟩

/-- C8 (amended): ownership is always set explicitly (a successful
`fix_permissions` always carries a uid and a gid for
`set_owner_group`), and when neither `GID` nor `GROUP` resolves the gid
applied is numerically the resolved owner's uid — not the owner's
primary group from the OS account database. -/
theorem c8_group_defaults_to_owner_uid (conf : EnvConf) (db : OsDb) (u g : Nat)
    (h : fix_permissions conf db = .applied u g)
    (hgid : conf.getEnv "GID" = none)
    (hgroup : conf.getEnv "GROUP" = none) :
    g = u := by
  have hfix : ∀ uid, fixGroup conf db uid = .applied uid uid := by
    intro uid
    unfold fixGroup
    rw [hgid, hgroup]
  unfold fix_permissions at h
  split at h
  · split at h
    · exact absurd h (by simp)
    · rw [hfix _] at h
      cases h
      rfl
  · split at h
    · split at h
      · exact absurd h (by simp)
      · rw [hfix _] at h
        cases h
        rfl
    · exact absurd h (by simp)

/-- Witness for C8 (amended) at the `alice` world: the applied gid
equals the resolved uid 1000. -/
theorem c8_group_defaults_to_owner_uid_witness : (1000 : Nat) = 1000 :=
  c8_group_defaults_to_owner_uid aliceConf demoDb 1000 1000 rfl rfl rfl

/-! ### C9 -/

/-- A source file that cannot be read back. -/
def eBad : Entry := { rel := ["f.txt"], content := .text "x", readErr := true }

/-- A healthy source file enumerated after the unreadable one. -/
def eGood : Entry := { rel := ["g.txt"], content := .text "y", readErr := false }

/-- A source tree whose `web` context contains the unreadable file
followed by a healthy one. -/
def srcBad : String → Bool × List Entry :=
  fun n => if n = "web" then (true, [eBad, eGood]) else (true, [])

/-- A CLI world that resolves completely (destination, storage, repo,
context `web`, and `UID`/`GID` so both permission resolvers succeed). -/
def okCliWorld : CliWorld :=
  { cliArgs := [("SERVER_SYNC_DESTINATION", "/dst"),
                ("SERVER_SYNC_REPO_STORAGE", "/tmp/server-sync/"),
                ("SERVER_SYNC_REPO", "https://example.test/repo.git")],
    cliContexts := some ["web"],
    envFile := none,
    procEnv := [("UID", "0"), ("GID", "0")] }

/-- C9 counterexample: with an unreadable source file the process
panics — `mainPipeline` ends in `panicked`, not in an exit-1 tally — and
inside the walk `phase1` panics at the unreadable entry with only the
ancestor chmod in the trace: the following file `g.txt` is never
processed.  The claim, which says the failure is recorded and the run
continues to exit 1, is false. -/
theorem c9_unreadable_source_panics :
    mainPipeline okCliWorld demoWorld demoGit srcBad demoFS = .panicked ∧
    phase1 demoWorld demoConf "web" demoFS [eBad, eGood] =
      .panicked [Op.chmod ["dst"]] :=
  ⟨rfl, rfl⟩

/-- C9 (amended): a source file that cannot be read during
classification makes `get_contents`'s `unwrap` panic: the walk aborts at
that entry (no error is recorded, later files are not processed), and at
the driver level the eager source scan of `FileSystem::new` already
panics before `run` starts — the process dies by panic instead of
exiting 1. -/
theorem c9_unreadable_source_panics_run (e : Entry) (he : e.readErr = true) :
    get_contents e = .panicked ∧
    (∀ (w : World) (conf : EnvConf) (n : String) (fs fs1 : FS) (rest : List Entry)
       (tr : List Op),
      processAncestors conf w.db fs
        (ancestorsUnder conf.destRoot (destOf conf e).dropLast) = .done fs1 tr →
      phase1 w conf n fs (e :: rest) = .panicked tr) ∧
    (∀ (cw : CliWorld) (conf : EnvConf) (w : World) (gw : GitWorld)
       (src : String → Bool × List Entry) (fs : FS) (sc : ServerContext),
      envConfNew cw = .ok conf →
      sc ∈ conf.contexts →
      e ∈ (src sc.name).2 →
      mainPipeline cw w gw src fs = .panicked) := by
  refine ⟨?_, ?_, ?_⟩
  · simp [get_contents, he]
  · intro w conf n fs fs1 rest tr hanc
    unfold phase1 walkStep
    rw [hanc]
    simp [get_contents, he]
  · intro cw conf w gw src fs sc hconf hsc hmem
    have hall : conf.contexts.all
        (fun sc => ((src sc.name).2.all (fun e => !e.readErr))) = false := by
      rw [List.all_eq_false]
      refine ⟨sc, hsc, ?_⟩
      rw [Bool.not_eq_true, List.all_eq_false]
      exact ⟨e, hmem, by simp [he]⟩
    unfold mainPipeline
    rw [hconf]
    simp [fileSystemNew, hall]

/-- Witness for C9 (amended) at the concrete unreadable entry: the
classification panics, the walk panics with only the ancestor chmod
performed, and the driver panics before `run`. -/
theorem c9_unreadable_source_panics_run_witness :
    get_contents eBad = .panicked ∧
    phase1 demoWorld demoConf "web" demoFS [eBad, eGood] = .panicked [Op.chmod ["dst"]] ∧
    mainPipeline okCliWorld demoWorld demoGit srcBad demoFS = .panicked := by
  have h := c9_unreadable_source_panics_run eBad rfl
  refine ⟨h.1, ?_, ?_⟩
  · exact h.2.1 demoWorld demoConf "web" demoFS demoFS [eGood] [Op.chmod ["dst"]] rfl
  · exact h.2.2 okCliWorld
      { cliArgs := okCliWorld.cliArgs, envFile := none, procEnv := okCliWorld.procEnv,
        contexts := [serverContextNew "web" "/tmp/server-sync/"],
        destRoot := ["dst"] }
      demoWorld demoGit srcBad demoFS (serverContextNew "web" "/tmp/server-sync/")
      rfl (by simp) (by simp [srcBad, serverContextNew, eBad])

/-! ### C2 -/

/-- A context whose first file hits a strict-mode render error and whose
second file would render fine. -/
def badRenderCtx : CtxRun :=
  { name := "web", rootOk := true,
    entries := [{ rel := ["a.txt"], content := .text "bad", readErr := false },
                { rel := ["b.txt"], content := .text "ok", readErr := false }] }

/-- A later context that would also render fine. -/
def laterCtx : CtxRun :=
  { name := "api", rootOk := true,
    entries := [{ rel := ["c.txt"], content := .text "ok", readErr := false }] }

/-- C2 counterexample: the first file's render error makes
`walk_directory` — and the whole `run` — return that single error
immediately: the trace contains only the ancestor chmod, `b.txt` in the
same context is never written, `c.txt` in the later context is never
written, and no error tally exists.  The claim, which says only that one
file is aborted and every subsequent file is still processed, is
false. -/
theorem c2_render_error_stops_whole_run :
    walk_directory failWorld demoConf badRenderCtx demoFS =
      .failed "Render source" [Op.chmod ["dst"]] ∧
    run failWorld demoConf demoGit [badRenderCtx, laterCtx] demoFS =
      .failed "Render source" [Op.chmod ["dst"]] ∧
    Op.createFile ["dst", "b.txt"] (.text "ok") ∉ [Op.chmod ["dst"]] ∧
    Op.createFile ["dst", "c.txt"] (.text "ok") ∉ [Op.chmod ["dst"]] :=
  ⟨rfl, rfl, by decide, by decide⟩

/-- C2 (amended): a render failure (strict-mode miss or template syntax
error) aborts not just that file but the entire run: `walk_directory`
stops at the failing file — no subsequent file of the same context and
no later context is processed, and no tally is kept — and `run`
propagates the error, which `main` maps to exit code 1 at once. -/
theorem c2_render_error_aborts_run (w : World) (conf : EnvConf) (n s : String)
    (fs fs1 : FS) (e : Entry) (rest : List Entry) (tr : List Op)
    (hc : e.content = .text s)
    (hre : e.readErr = false)
    (hrender : render_entry w conf n s = none)
    (hanc : processAncestors conf w.db fs
      (ancestorsUnder conf.destRoot (destOf conf e).dropLast) = .done fs1 tr) :
    phase1 w conf n fs (e :: rest) = .failed "Render source" tr ∧
    walk_directory w conf { name := n, rootOk := true, entries := e :: rest } fs =
      .failed "Render source" tr ∧
    (∀ (gw : GitWorld) (ctxs : List CtxRun) (st : String),
      conf.getEnv "SERVER_SYNC_REPO_STORAGE" = some st →
      sync_repository conf gw = .ok →
      run w conf gw ({ name := n, rootOk := true, entries := e :: rest } :: ctxs) fs =
        .failed "Render source" tr) := by
  have hphase : phase1 w conf n fs (e :: rest) = .failed "Render source" tr := by
    unfold phase1 walkStep
    rw [hanc]
    simp [get_contents, hre, hc, hrender]
  refine ⟨hphase, ?_, ?_⟩
  · unfold walk_directory
    rw [hphase]
    simp
  · intro gw ctxs st hst hsync
    unfold run
    rw [hst, hsync]
    unfold runContexts
    rw [if_pos rfl]
    unfold walk_directory
    rw [hphase]
    simp

/-- Witness for C2 (amended) at the concrete failing context: the walk,
the single-context run and the two-context run all stop with the single
render error and only the ancestor chmod in the trace. -/
theorem c2_render_error_aborts_run_witness :
    phase1 failWorld demoConf "web" demoFS badRenderCtx.entries =
      .failed "Render source" [Op.chmod ["dst"]] ∧
    walk_directory failWorld demoConf
      { name := "web", rootOk := true, entries := badRenderCtx.entries } demoFS =
      .failed "Render source" [Op.chmod ["dst"]] ∧
    run failWorld demoConf demoGit
      ({ name := "web", rootOk := true, entries := badRenderCtx.entries } :: [laterCtx])
      demoFS = .failed "Render source" [Op.chmod ["dst"]] := by
  have h := c2_render_error_aborts_run failWorld demoConf "web" "bad" demoFS demoFS
    { rel := ["a.txt"], content := .text "bad", readErr := false }
    [{ rel := ["b.txt"], content := .text "ok", readErr := false }]
    [Op.chmod ["dst"]] rfl rfl rfl rfl
  exact ⟨h.1, h.2.1, h.2.2 demoGit [laterCtx] "/tmp/server-sync/" rfl rfl⟩

/-! ### C3 -/

/-- A destination holding a non-UTF-8 file at `/dst/f.txt`. -/
def blobDestFS : FS :=
  { dirs := [[], ["dst"]], files := [(["dst", "f.txt"], .blob [255])] }

/-- The text entry whose rendering will replace that file. -/
def eText : Entry := { rel := ["f.txt"], content := .text "x", readErr := false }

/-- C3 counterexample: the destination exists and its bytes (the
non-UTF-8 blob `0xFF`) differ from the candidate `x`, yet the
reconciliation performs no rename at all — `check_existing` returns
`Ok(false)` when the existing bytes fail UTF-8 validation — and
`File::create` truncates the old file in place; the old content is never
present at the backup path.  The claim, which demands rename-before-write
for every existing, differing destination, is false. -/
theorem c3_non_utf8_destination_truncated_in_place :
    blobDestFS.lookup ["dst", "f.txt"] = some (.blob [255]) ∧
    (Content.blob [255] ≠ Content.text "x") ∧
    walkStep demoWorld demoConf "web" blobDestFS eText =
      .done (blobDestFS.setFile ["dst", "f.txt"] (.text "x"), none)
        [Op.chmod ["dst"], Op.createFile ["dst", "f.txt"] (.text "x"),
         Op.chmod ["dst", "f.txt"]] ∧
    (∀ src dst, Op.renameFile src dst ∉
      [Op.chmod ["dst"], Op.createFile ["dst", "f.txt"] (.text "x"),
       Op.chmod ["dst", "f.txt"]]) := by
  refine ⟨rfl, by decide, rfl, ?_⟩
  intro src dst h
  simp at h

/-- C3 (amended): rename-before-write does hold on the two paths that
perform a backup — a text render whose existing destination is valid
UTF-8 and differs, and an opaque copy whose existing destination differs
— where the trace is exactly rename, then create+write, then chmod; but
when an existing destination's bytes are not valid UTF-8 on the text
path it is truncated in place with no backup (see the
counterexample). -/
theorem c3_backup_renames_before_write :
    (∀ (w : World) (conf : EnvConf) (n s r ex : String) (fs fs1 : FS) (e : Entry)
       (tr : List Op) (u g : Nat),
      e.readErr = false →
      e.content = .text s →
      render_entry w conf n s = some r →
      processAncestors conf w.db fs
        (ancestorsUnder conf.destRoot (destOf conf e).dropLast) = .done fs1 tr →
      fs1.isDirB (destOf conf e) = false →
      fs1.lookup (destOf conf e) = some (.text ex) →
      ex ≠ r →
      fix_permissions conf w.db = .applied u g →
      walkStep w conf n fs e =
        .done ((fs1.rename (destOf conf e)
                  (withExtBak (destOf conf e))).setFile
                (destOf conf e) (.text r), none)
          (tr ++ [Op.renameFile (destOf conf e)
                    (withExtBak (destOf conf e))] ++
           [Op.createFile (destOf conf e) (.text r)] ++
           [Op.chmod (destOf conf e)])) ∧
    (∀ (w : World) (conf : EnvConf) (fs : FS) (c0 c : Content) (d : FsPath)
       (u g : Nat),
      fs.lookup d = some c →
      c ≠ c0 →
      fix_permissions conf w.db = .applied u g →
      blobStep w conf fs (c0, d) =
        .done ((fs.rename d (withExtBak d)).setFile d c0)
          ([Op.renameFile d (withExtBak d), Op.createFile d c0] ++ [Op.chmod d])) := by
  constructor
  · intro w conf n s r ex fs fs1 e tr u g hre hc hrender hanc hdir hlook hne hfix
    unfold walkStep
    rw [hanc]
    simp only [pbind_done]
    simp only [get_contents, hre, Bool.false_eq_true, if_false, hc]
    rw [hrender]
    unfold check_existing
    rw [hdir, hlook]
    simp only [Bool.false_eq_true, if_false, if_neg hne]
    simp [applyPerms, hfix]
  · intro w conf fs c0 c d u g hlook hne hfix
    unfold blobStep
    rw [hlook]
    simp only [if_neg (fun hq : c = c0 => hne hq)]
    simp [applyPerms, hfix]

/-- A destination holding a differing text file at `/dst/f.txt`. -/
def textDestFS : FS :=
  { dirs := [[], ["dst"]], files := [(["dst", "f.txt"], .text "old")] }

/-- Witness for C3 (amended): on a text destination `old` being replaced
by `x`, the trace is chmod of the ancestor, then rename to
`/dst/f.bak`, then create+write, then chmod — rename strictly before
write; likewise for the opaque path. -/
theorem c3_backup_renames_before_write_witness :
    walkStep demoWorld demoConf "web" textDestFS eText =
      .done ((textDestFS.rename ["dst", "f.txt"]
                (withExtBak ["dst", "f.txt"])).setFile ["dst", "f.txt"] (.text "x"), none)
        ([Op.chmod ["dst"]] ++ [Op.renameFile ["dst", "f.txt"] (withExtBak ["dst", "f.txt"])] ++
         [Op.createFile ["dst", "f.txt"] (.text "x")] ++ [Op.chmod ["dst", "f.txt"]]) ∧
    blobStep demoWorld demoConf textDestFS (.blob [0, 255], ["dst", "f.txt"]) =
      .done ((textDestFS.rename ["dst", "f.txt"]
                (withExtBak ["dst", "f.txt"])).setFile ["dst", "f.txt"] (.blob [0, 255]))
        ([Op.renameFile ["dst", "f.txt"] (withExtBak ["dst", "f.txt"]),
          Op.createFile ["dst", "f.txt"] (.blob [0, 255])] ++ [Op.chmod ["dst", "f.txt"]]) := by
  constructor
  · exact c3_backup_renames_before_write.1 demoWorld demoConf "web" "x" "x" "old"
      textDestFS textDestFS eText [Op.chmod ["dst"]] 0 0 rfl rfl rfl rfl rfl rfl
      (by decide) rfl
  · exact c3_backup_renames_before_write.2 demoWorld demoConf textDestFS
      (.blob [0, 255]) (.text "old") ["dst", "f.txt"] 0 0 rfl (by decide) rfl

/-! ### C6 -/

/-- A file nested two directories deep below the destination root. -/
def deepEntry : Entry := { rel := ["a", "b", "f.txt"], content := .text "x", readErr := false }

/-- C6: the ancestor list is iterated leaf-to-root (`Path::ancestors()`
order), so with `/dst` existing but `/dst/a` missing, the first
`create_dir` call targets `/dst/a/b`, whose parent does not exist, and
the non-recursive create fails: reconciliation of the file aborts with
the ancestor-creation error instead of creating `/dst/a` then `/dst/a/b`
root-to-leaf as the claim describes.  The dead `FileSystem::ensure_dirs`
has the same leaf-to-root defect. -/
theorem c6_ancestor_creation_leaf_to_root_fails :
    ancestorsUnder ["dst"] ["dst", "a", "b"] = [["dst", "a", "b"], ["dst", "a"], ["dst"]] ∧
    demoFS.pathExists ["dst", "a", "b"] = false ∧
    demoFS.isDirB ["dst", "a"] = false ∧
    processAncestors demoConf demoDb demoFS [["dst", "a", "b"], ["dst", "a"], ["dst"]] =
      .failed "Create ancestor directory" [] ∧
    walkStep demoWorld demoConf "web" demoFS deepEntry =
      .failed "Create ancestor directory" [] ∧
    ensure_dirs ["dst"] demoFS ["dst", "a", "b", "f.txt"] =
      .error "Create ancestor directory" :=
  ⟨rfl, rfl, rfl, rfl, rfl, rfl⟩

/-! ### C10: every touched path lies under the destination root -/

/-- The paths an operation touches. -/
def Op.touches : Op → List FsPath
  | .createDir p => [p]
  | .renameFile src dst => [src, dst]
  | .createFile p _ => [p]
  | .chmod p => [p]

/-- The trace carried by a pipeline result, on every outcome. -/
def PRes.trace {α : Type} : PRes α → List Op
  | .panicked tr => tr
  | .failed _ tr => tr
  | .done _ tr => tr

/-- Every operation of the trace touches only paths that have `root` as
a prefix. -/
def opsUnder (root : FsPath) (tr : List Op) : Prop :=
  ∀ op ∈ tr, ∀ p ∈ op.touches, root <+: p

theorem opsUnder_nil (root : FsPath) : opsUnder root [] := by
  intro op h
  exact absurd h (List.not_mem_nil op)

theorem opsUnder_append (root : FsPath) (t1 t2 : List Op)
    (h1 : opsUnder root t1) (h2 : opsUnder root t2) : opsUnder root (t1 ++ t2) := by
  intro op h
  rcases List.mem_append.mp h with h | h
  · exact h1 op h
  · exact h2 op h

theorem opsUnder_snoc (root : FsPath) (tr : List Op) (op : Op)
    (h : opsUnder root tr) (hop : ∀ p ∈ op.touches, root <+: p) :
    opsUnder root (tr ++ [op]) := by
  refine opsUnder_append root tr [op] h ?_
  intro o ho
  rw [List.mem_singleton] at ho
  subst ho
  exact hop

theorem opsUnder_chmod (root p : FsPath) (hp : root <+: p) :
    ∀ q ∈ (Op.chmod p).touches, root <+: q := by
  intro q hq
  simp [Op.touches] at hq
  subst hq
  exact hp

/-- The permission-normalization tail only adds a chmod of the given
path to the trace. -/
theorem applyPerms_trace (conf : EnvConf) (db : OsDb) (fs : FS) (path : FsPath)
    (tr : List Op) (root : FsPath) (h : opsUnder root tr) (hp : root <+: path) :
    opsUnder root (applyPerms conf db fs path tr).trace := by
  unfold applyPerms
  cases fix_permissions conf db with
  | panicked => exact h
  | failed m => exact h
  | applied u g =>
    exact opsUnder_snoc root tr (Op.chmod path) h (opsUnder_chmod root path hp)

/-- Sequencing preserves the all-under-root trace property. -/
theorem pbind_trace {α β : Type} (root : FsPath) (r : PRes α) (k : α → List Op → PRes β)
    (hr : opsUnder root r.trace)
    (hk : ∀ a tr, r = .done a tr → opsUnder root (k a tr).trace) :
    opsUnder root (pbind r k).trace := by
  cases r with
  | panicked tr => exact hr
  | failed m tr => exact hr
  | done a tr => exact hk a tr rfl

/-- Prepending a trace preserves the all-under-root property. -/
theorem padd_trace (root : FsPath) (tr : List Op) {α : Type} (r : PRes α)
    (htr : opsUnder root tr) (hr : opsUnder root r.trace) :
    opsUnder root (padd tr r).trace := by
  cases r with
  | panicked t2 => exact opsUnder_append _ _ _ htr hr
  | failed m t2 => exact opsUnder_append _ _ _ htr hr
  | done a t2 => exact opsUnder_append _ _ _ htr hr

/-- Inversion of a successful sequencing. -/
theorem pbind_done_inv {α β : Type} {r : PRes α} {k : α → List Op → PRes β}
    {b : β} {tr2 : List Op} (h : pbind r k = .done b tr2) :
    ∃ a tr, r = .done a tr ∧ k a tr = .done b tr2 := by
  cases r with
  | panicked tr => simp [pbind] at h
  | failed m tr => simp [pbind] at h
  | done a tr => exact ⟨a, tr, rfl, h⟩

/-- Inversion of a successful trace-prefixing. -/
theorem padd_done_inv {α : Type} {tr : List Op} {r : PRes α} {a : α} {t : List Op}
    (h : padd tr r = .done a t) :
    ∃ t2, r = .done a t2 ∧ t = tr ++ t2 := by
  cases r with
  | panicked t2 => simp [padd] at h
  | failed m t2 => simp [padd] at h
  | done a2 t2 =>
    injection h with h1 h2
    exact ⟨t2, by rw [h1], h2.symm⟩

/-- The ancestor loop touches only the listed ancestors. -/
theorem processAncestors_trace (conf : EnvConf) (db : OsDb) (root : FsPath)
    (l : List FsPath) (hl : ∀ a ∈ l, root <+: a) :
    ∀ fs : FS, opsUnder root (processAncestors conf db fs l).trace := by
  induction l with
  | nil => intro fs; exact opsUnder_nil root
  | cons a rest ih =>
    intro fs
    have ha : root <+: a := hl a (List.mem_cons_self a rest)
    have hrest : ∀ b ∈ rest, root <+: b := fun b hb => hl b (List.mem_cons_of_mem a hb)
    have hcreate : opsUnder root [Op.createDir a] := by
      intro op hop p hp
      rw [List.mem_singleton] at hop
      subst hop
      simp [Op.touches] at hp
      subst hp
      exact ha
    have hstep : opsUnder root
        ((if fs.pathExists a then PRes.done fs ([] : List Op)
          else if fs.isDirB a.dropLast then PRes.done (fs.addDir a) [Op.createDir a]
          else PRes.failed "Create ancestor directory" []) : PRes FS).trace := by
      by_cases hex : fs.pathExists a = true
      · rw [if_pos hex]; exact opsUnder_nil root
      · rw [if_neg hex]
        by_cases hpar : fs.isDirB a.dropLast = true
        · rw [if_pos hpar]; exact hcreate
        · rw [if_neg hpar]; exact opsUnder_nil root
    have hsteptr : ∀ (fs1 : FS) (tr1 : List Op),
        ((if fs.pathExists a then PRes.done fs ([] : List Op)
          else if fs.isDirB a.dropLast then PRes.done (fs.addDir a) [Op.createDir a]
          else PRes.failed "Create ancestor directory" []) : PRes FS) = .done fs1 tr1 →
        opsUnder root tr1 := by
      intro fs1 tr1 hdone
      have h2 := hstep
      rw [hdone] at h2
      exact h2
    unfold processAncestors
    refine pbind_trace root _ _ hstep ?_
    intro fs1 tr1 hdone
    have htr1 := hsteptr fs1 tr1 hdone
    refine pbind_trace root _ _ (applyPerms_trace conf db fs1 a tr1 root htr1 ha) ?_
    intro fs2 tr2 hdone2
    have htr2 : opsUnder root tr2 := by
      have h3 := applyPerms_trace conf db fs1 a tr1 root htr1 ha
      rw [hdone2] at h3
      exact h3
    exact padd_trace root tr2 _ htr2 (ih hrest fs2)

/-- Every ancestor the walk keeps is under the destination root. -/
theorem ancestorsUnder_all_underRoot (root p : FsPath) :
    ∀ a ∈ ancestorsUnder root p, root <+: a :=
  fun a ha => mem_ancestorsUnder_prefix root p a ha

/-- The backup rename of `check_existing` only touches the destination
and its backup path. -/
theorem check_existing_trace (fs : FS) (d : FsPath) (r : String) (root : FsPath)
    (hd : root <+: d) (hb : root <+: withExtBak d) :
    ∀ (b : Bool) (fs2 : FS) (ctr : List Op),
      check_existing fs d r = .ok b fs2 ctr → opsUnder root ctr := by
  intro b fs2 ctr hc
  unfold check_existing at hc
  by_cases hdir : fs.isDirB d = true
  · rw [if_pos hdir] at hc; cases hc
  · rw [if_neg hdir] at hc
    cases hl : fs.lookup d with
    | none => rw [hl] at hc; cases hc; exact opsUnder_nil _
    | some c =>
      rw [hl] at hc
      cases c with
      | blob bs => cases hc; exact opsUnder_nil _
      | text ex =>
        dsimp only at hc
        by_cases hex : ex = r
        · rw [if_pos hex] at hc; cases hc; exact opsUnder_nil _
        · rw [if_neg hex] at hc
          cases hc
          intro op hop p hp
          rw [List.mem_singleton] at hop
          subst hop
          simp [Op.touches] at hp
          rcases hp with hp | hp <;> subst hp
          · exact hd
          · exact hb

/-- One text-or-defer step touches only paths under the destination
root, provided the entry's relative path is nonempty (the enumerator
only yields files strictly below the context root). -/
theorem walkStep_trace (w : World) (conf : EnvConf) (n : String) (fs : FS)
    (e : Entry) (hrel : e.rel ≠ []) :
    opsUnder conf.destRoot (walkStep w conf n fs e).trace := by
  have hdest : conf.destRoot <+: destOf conf e := List.prefix_append _ _
  have hbak : conf.destRoot <+: withExtBak (destOf conf e) := by
    unfold destOf
    exact prefix_withExtBak conf.destRoot e.rel hrel
  have hanc := processAncestors_trace conf w.db conf.destRoot
    (ancestorsUnder conf.destRoot (destOf conf e).dropLast)
    (ancestorsUnder_all_underRoot conf.destRoot (destOf conf e).dropLast)
  unfold walkStep
  refine pbind_trace conf.destRoot _ _ (hanc fs) ?_
  intro fs1 tr hdone
  have htr : opsUnder conf.destRoot tr := by
    have h2 := hanc fs
    rw [hdone] at h2
    exact h2
  cases get_contents e with
  | panicked => exact htr
  | ok u =>
    cases u with
    | none => exact htr
    | some contents =>
      dsimp only
      cases render_entry w conf n contents with
      | none => exact htr
      | some rendered =>
        dsimp only
        cases hce : check_existing fs1 (destOf conf e) rendered with
        | panicked => exact htr
        | ok b fs2 ctr =>
          have hctr := check_existing_trace fs1 (destOf conf e) rendered conf.destRoot
            hdest hbak b fs2 ctr hce
          cases b with
          | true =>
            simp only [if_true]
            refine pbind_trace conf.destRoot _ _
              (applyPerms_trace conf w.db fs2 (destOf conf e) (tr ++ ctr) conf.destRoot
                (opsUnder_append _ _ _ htr hctr) hdest) ?_
            intro fs3 tr2 hdone2
            have h3 := applyPerms_trace conf w.db fs2 (destOf conf e) (tr ++ ctr)
              conf.destRoot (opsUnder_append _ _ _ htr hctr) hdest
            rw [hdone2] at h3
            exact h3
          | false =>
            simp only [Bool.false_eq_true, if_false]
            have hwrote : opsUnder conf.destRoot
                (tr ++ ctr ++ [Op.createFile (destOf conf e) (.text rendered)]) := by
              refine opsUnder_snoc _ _ _ (opsUnder_append _ _ _ htr hctr) ?_
              intro p hp
              simp [Op.touches] at hp
              subst hp
              exact hdest
            refine pbind_trace conf.destRoot _ _
              (applyPerms_trace conf w.db _ (destOf conf e) _ conf.destRoot hwrote hdest) ?_
            intro fs3 tr2 hdone2
            have h3 := applyPerms_trace conf w.db
              (fs2.setFile (destOf conf e) (.text rendered)) (destOf conf e)
              (tr ++ ctr ++ [Op.createFile (destOf conf e) (.text rendered)])
              conf.destRoot hwrote hdest
            rw [hdone2] at h3
            exact h3

/-- A deferred pair produced by one step carries the entry's destination
path. -/
theorem walkStep_push (w : World) (conf : EnvConf) (n : String) (fs fs1 : FS)
    (e : Entry) (push : Option (Content × FsPath)) (tr : List Op)
    (h : walkStep w conf n fs e = .done (fs1, push) tr) :
    push = none ∨ push = some (e.content, destOf conf e) := by
  unfold walkStep at h
  obtain ⟨a, tr0, hpa, hk⟩ := pbind_done_inv h
  cases hgc : get_contents e with
  | panicked => rw [hgc] at hk; simp at hk
  | ok u =>
    rw [hgc] at hk
    cases u with
    | none =>
      dsimp only at hk
      injection hk with hk1 hk2
      injection hk1 with hk1a hk1b
      exact Or.inr hk1b.symm
    | some contents =>
      dsimp only at hk
      cases hre : render_entry w conf n contents with
      | none => rw [hre] at hk; simp at hk
      | some rendered =>
        rw [hre] at hk
        dsimp only at hk
        cases hce : check_existing a (destOf conf e) rendered with
        | panicked => rw [hce] at hk; simp at hk
        | ok b fs2 ctr =>
          rw [hce] at hk
          dsimp only at hk
          cases b with
          | true =>
            rw [if_pos rfl] at hk
            obtain ⟨f3, t3, hap, hk2⟩ := pbind_done_inv hk
            injection hk2 with hk2a hk2b
            injection hk2a with hk2c hk2d
            exact Or.inl hk2d.symm
          | false =>
            rw [if_neg Bool.false_ne_true] at hk
            obtain ⟨f3, t3, hap, hk2⟩ := pbind_done_inv hk
            injection hk2 with hk2a hk2b
            injection hk2a with hk2c hk2d
            exact Or.inl hk2d.symm

/-- The first loop touches only paths under the destination root, and
every deferred pair carries the destination of one of the entries. -/
theorem phase1_trace (w : World) (conf : EnvConf) (n : String)
    (entries : List Entry) (hrel : ∀ e ∈ entries, e.rel ≠ []) :
    ∀ fs : FS,
      opsUnder conf.destRoot (phase1 w conf n fs entries).trace ∧
      (∀ (fs2 : FS) (pushes : List (Content × FsPath)) (tr : List Op),
        phase1 w conf n fs entries = .done (fs2, pushes) tr →
        ∀ bc ∈ pushes, ∃ e, e ∈ entries ∧ bc.2 = destOf conf e) := by
  induction entries with
  | nil =>
    intro fs
    constructor
    · exact opsUnder_nil _
    · intro fs2 pushes tr h bc hbc
      cases h
      exact absurd hbc (List.not_mem_nil bc)
  | cons e rest ih =>
    intro fs
    have he : e.rel ≠ [] := hrel e (List.mem_cons_self e rest)
    have hrest : ∀ x ∈ rest, x.rel ≠ [] := fun x hx => hrel x (List.mem_cons_of_mem e hx)
    have hws := walkStep_trace w conf n fs e he
    constructor
    · unfold phase1
      refine pbind_trace conf.destRoot _ _ hws ?_
      intro a tr hdone
      have htr : opsUnder conf.destRoot tr := by
        have h2 := hws
        rw [hdone] at h2
        exact h2
      refine padd_trace conf.destRoot tr _ htr ?_
      refine pbind_trace conf.destRoot _ _ ((ih hrest a.1).1) ?_
      intro b tr2 hdone2
      have h3 := (ih hrest a.1).1
      rw [hdone2] at h3
      exact h3
    · intro fs2 pushes tr h bc hbc
      unfold phase1 at h
      obtain ⟨a, tr0, hstep, hk⟩ := pbind_done_inv h
      try dsimp only at hk
      obtain ⟨t2, hk2, ht⟩ := padd_done_inv hk
      obtain ⟨b2, t3, hrec, hk3⟩ := pbind_done_inv hk2
      injection hk3 with hk3a hk3b
      injection hk3a with hk3c hk3d
      subst hk3d
      rcases List.mem_append.mp hbc with hin | hin
      · rcases walkStep_push w conf n fs a.1 e a.2 tr0
          (by rw [hstep]) with hnone | hsome
        · rw [hnone] at hin
          exact absurd hin (List.not_mem_nil bc)
        · rw [hsome] at hin
          rw [Option.toList_some, List.mem_singleton] at hin
          subst hin
          exact ⟨e, List.mem_cons_self e rest, rfl⟩
      · obtain ⟨x, hx, hxd⟩ := (ih hrest a.1).2 b2.1 b2.2 t3
          (by rw [hrec]) bc hin
        exact ⟨x, List.mem_cons_of_mem e hx, hxd⟩

/-- One opaque-copy step touches only paths under the destination root
when its destination is an entry destination. -/
theorem blobStep_trace (w : World) (conf : EnvConf) (fs : FS)
    (bc : Content × FsPath) (rel : FsPath) (hrel : rel ≠ [])
    (hd : bc.2 = conf.destRoot ++ rel) :
    opsUnder conf.destRoot (blobStep w conf fs bc).trace := by
  have hdest : conf.destRoot <+: bc.2 := by rw [hd]; exact List.prefix_append _ _
  have hbak : conf.destRoot <+: withExtBak bc.2 := by
    rw [hd]
    exact prefix_withExtBak conf.destRoot rel hrel
  unfold blobStep
  cases fs.lookup bc.2 with
  | none =>
    refine applyPerms_trace conf w.db _ bc.2 _ conf.destRoot ?_ hdest
    intro op hop p hp
    rw [List.mem_singleton] at hop
    subst hop
    simp [Op.touches] at hp
    subst hp
    exact hdest
  | some existing =>
    dsimp only
    by_cases heq : existing = bc.1
    · rw [if_pos heq]
      exact opsUnder_nil _
    · rw [if_neg heq]
      refine applyPerms_trace conf w.db _ bc.2 _ conf.destRoot ?_ hdest
      intro op hop p hp
      rcases List.mem_pair.mp hop with h | h <;> subst h
      · simp [Op.touches] at hp
        rcases hp with hp | hp <;> subst hp
        · exact hdest
        · exact hbak
      · simp [Op.touches] at hp
        subst hp
        exact hdest

/-- The second loop touches only paths under the destination root. -/
theorem phase2_trace (w : World) (conf : EnvConf)
    (pushes : List (Content × FsPath))
    (hp : ∀ bc ∈ pushes, ∃ rel, rel ≠ [] ∧ bc.2 = conf.destRoot ++ rel) :
    ∀ fs : FS, opsUnder conf.destRoot (phase2 w conf fs pushes).trace := by
  induction pushes with
  | nil => intro fs; exact opsUnder_nil _
  | cons bc rest ih =>
    intro fs
    obtain ⟨rel, hrel, hd⟩ := hp bc (List.mem_cons_self bc rest)
    have hrest : ∀ x ∈ rest, ∃ r, r ≠ [] ∧ x.2 = conf.destRoot ++ r :=
      fun x hx => hp x (List.mem_cons_of_mem bc hx)
    have hbs := blobStep_trace w conf fs bc rel hrel hd
    unfold phase2
    refine pbind_trace conf.destRoot _ _ hbs ?_
    intro fs1 tr hdone
    have htr : opsUnder conf.destRoot tr := by
      have h2 := hbs
      rw [hdone] at h2
      exact h2
    exact padd_trace conf.destRoot tr _ htr (ih hrest fs1)

/-- A whole-context walk touches only paths under the destination
root. -/
theorem walk_directory_trace (w : World) (conf : EnvConf) (c : CtxRun) (fs : FS)
    (hrel : ∀ e ∈ c.entries, e.rel ≠ []) :
    opsUnder conf.destRoot (walk_directory w conf c fs).trace := by
  have h1 := (phase1_trace w conf c.name c.entries hrel fs).1
  unfold walk_directory
  refine pbind_trace conf.destRoot _ _ h1 ?_
  intro a tr hdone
  have htr : opsUnder conf.destRoot tr := by
    have h2 := h1
    rw [hdone] at h2
    exact h2
  have hpush : ∀ bc ∈ a.2, ∃ rel, rel ≠ [] ∧ bc.2 = conf.destRoot ++ rel := by
    intro bc hbc
    obtain ⟨e, he, hdd⟩ := (phase1_trace w conf c.name c.entries hrel fs).2 a.1 a.2 tr
      (by rw [hdone]) bc hbc
    exact ⟨e.rel, hrel e he, hdd⟩
  exact padd_trace conf.destRoot tr _ htr (phase2_trace w conf a.2 hpush a.1)

/-- The context loop touches only paths under the destination root. -/
theorem runContexts_trace (w : World) (conf : EnvConf) (ctxs : List CtxRun)
    (hrel : ∀ c ∈ ctxs, ∀ e ∈ c.entries, e.rel ≠ []) :
    ∀ fs : FS, opsUnder conf.destRoot (runContexts w conf fs ctxs).trace := by
  induction ctxs with
  | nil => intro fs; exact opsUnder_nil _
  | cons c rest ih =>
    intro fs
    have hc : ∀ e ∈ c.entries, e.rel ≠ [] := hrel c (List.mem_cons_self c rest)
    have hrest : ∀ x ∈ rest, ∀ e ∈ x.entries, e.rel ≠ [] :=
      fun x hx => hrel x (List.mem_cons_of_mem c hx)
    unfold runContexts
    by_cases hok : c.rootOk = true
    · rw [if_pos hok]
      have hw := walk_directory_trace w conf c fs hc
      refine pbind_trace conf.destRoot _ _ hw ?_
      intro fs1 tr hdone
      have htr : opsUnder conf.destRoot tr := by
        have h2 := hw
        rw [hdone] at h2
        exact h2
      exact padd_trace conf.destRoot tr _ htr (ih hrest fs1)
    · rw [if_neg hok]
      exact opsUnder_nil _

/-- C10: whatever the run's outcome, every filesystem operation it
performed — directory creations, file creations, renames (both the
renamed file and its backup target) and permission normalizations —
touches only paths having `destination_root` as a prefix, provided every
enumerated file has a nonempty relative path (the enumerator yields only
files strictly below the context root). -/
theorem c10_all_writes_under_destination_root (w : World) (conf : EnvConf)
    (gw : GitWorld) (ctxs : List CtxRun) (fs : FS)
    (hrel : ∀ c ∈ ctxs, ∀ e ∈ c.entries, e.rel ≠ []) :
    opsUnder conf.destRoot (run w conf gw ctxs fs).trace := by
  unfold run
  cases conf.getEnv "SERVER_SYNC_REPO_STORAGE" with
  | none => exact opsUnder_nil _
  | some st =>
    cases sync_repository conf gw with
    | panicked => exact opsUnder_nil _
    | failed m => exact opsUnder_nil _
    | ok => exact runContexts_trace w conf ctxs hrel fs

/-- Witness for C10 at the concrete one-context world: every operation
of the completed run touches only paths under `/dst`. -/
theorem c10_all_writes_under_destination_root_witness :
    opsUnder ["dst"] (run demoWorld demoConf demoGit demoCtxs demoFS).trace :=
  c10_all_writes_under_destination_root demoWorld demoConf demoGit demoCtxs demoFS
    (by decide)

/-! ### C5: idempotence of a second run

The second-run analysis needs (a) inversion lemmas extracting, from a
successful first run, what each step must have done, and (b) no-op
lemmas showing that on an already-synchronized destination every step
returns the filesystem unchanged with a chmod-only trace. -/

/-- The ancestors of an entry's destination that the walk keeps. -/
def anc (conf : EnvConf) (e : Entry) : List FsPath :=
  ancestorsUnder conf.destRoot (destOf conf e).dropLast

/-- Ownership resolution succeeds. -/
def FixOk (conf : EnvConf) (db : OsDb) : Prop :=
  ∃ u g, fix_permissions conf db = .applied u g

theorem FS.pathExists_of_lookup (fs : FS) (p : FsPath) (c : Content)
    (h : fs.lookup p = some c) : fs.pathExists p = true := by
  unfold FS.pathExists
  rw [h]
  simp

theorem FS.pathExists_of_isDirB (fs : FS) (p : FsPath)
    (h : fs.isDirB p = true) : fs.pathExists p = true := by
  unfold FS.pathExists
  rw [h]
  simp

theorem FS.pathExists_elim (fs : FS) (p : FsPath) (h : fs.pathExists p = true) :
    fs.isDirB p = true ∨ ∃ c, fs.lookup p = some c := by
  unfold FS.pathExists at h
  rw [Bool.or_eq_true] at h
  rcases h with h | h
  · exact Or.inl h
  · right
    cases hc : fs.lookup p with
    | none => rw [hc] at h; cases h
    | some c => exact ⟨c, rfl⟩

theorem FS.isDirB_addDir_iff (fs : FS) (p q : FsPath) :
    (fs.addDir p).isDirB q = true ↔ p = q ∨ fs.isDirB q = true := by
  unfold FS.addDir FS.isDirB
  simp only [memPath]
  by_cases h : p = q <;> simp [h]

theorem FS.lookup_addDir (fs : FS) (p q : FsPath) :
    (fs.addDir p).lookup q = fs.lookup q := rfl

theorem FS.isDirB_setFile (fs : FS) (p q : FsPath) (c : Content) :
    (fs.setFile p c).isDirB q = fs.isDirB q := rfl

theorem FS.isDirB_rename (fs : FS) (src dst q : FsPath) :
    (fs.rename src dst).isDirB q = fs.isDirB q := by
  unfold FS.rename
  cases fs.lookup src <;> rfl

theorem FS.pathExists_addDir_mono (fs : FS) (p q : FsPath)
    (h : fs.pathExists q = true) : (fs.addDir p).pathExists q = true := by
  rcases FS.pathExists_elim fs q h with h | ⟨c, h⟩
  · exact FS.pathExists_of_isDirB _ q ((FS.isDirB_addDir_iff fs p q).mpr (Or.inr h))
  · exact FS.pathExists_of_lookup _ q c (by rw [FS.lookup_addDir]; exact h)

/-- After a backup-then-write (or plain write) of `c` at `d`, `d` holds
`c`, every path other than `d` and its backup is untouched, directories
are untouched, and path existence only grows (for the rename case the
renamed-over source is given). -/
theorem FS.write_after_rename_facts (fs : FS) (d : FsPath) (c ex : Content)
    (hsrc : fs.lookup d = some ex) :
    ((fs.rename d (withExtBak d)).setFile d c).lookup d = some c ∧
    (∀ p, p ≠ d → p ≠ withExtBak d →
      ((fs.rename d (withExtBak d)).setFile d c).lookup p = fs.lookup p) ∧
    (∀ q, ((fs.rename d (withExtBak d)).setFile d c).isDirB q = fs.isDirB q) ∧
    (∀ p, fs.pathExists p = true →
      ((fs.rename d (withExtBak d)).setFile d c).pathExists p = true) := by
  refine ⟨FS.lookup_setFile_self _ d c, ?_, ?_, ?_⟩
  · intro p hpd hpb
    rw [FS.lookup_setFile_other _ d p c (fun h => hpd h), FS.lookup_rename_other fs d _ p hpd hpb]
  · intro q
    rw [FS.isDirB_setFile, FS.isDirB_rename]
  · intro p hp
    by_cases hpd : p = d
    · subst hpd
      exact FS.pathExists_of_lookup _ p c (FS.lookup_setFile_self _ p c)
    · by_cases hpb : p = withExtBak d
      · subst hpb
        by_cases hbd : withExtBak d = d
        · rw [hbd]
          exact FS.pathExists_of_lookup _ d c (FS.lookup_setFile_self _ d c)
        · have h1 : ((fs.rename d (withExtBak d)).setFile d c).lookup (withExtBak d) =
              (fs.rename d (withExtBak d)).lookup (withExtBak d) :=
            FS.lookup_setFile_other _ d (withExtBak d) c hbd
          have h2 := FS.lookup_rename_dst fs d (withExtBak d) ex hsrc
          exact FS.pathExists_of_lookup _ _ ex (by rw [h1, h2])
      · rcases FS.pathExists_elim fs p hp with h | ⟨cc, h⟩
        · refine FS.pathExists_of_isDirB _ p ?_
          rw [FS.isDirB_setFile, FS.isDirB_rename]
          exact h
        · refine FS.pathExists_of_lookup _ p cc ?_
          rw [FS.lookup_setFile_other _ d p c hpd, FS.lookup_rename_other fs d _ p hpd hpb]
          exact h

/-- The same facts for a plain write to a previously-absent `d`. -/
theorem FS.write_fresh_facts (fs : FS) (d : FsPath) (c : Content) :
    (fs.setFile d c).lookup d = some c ∧
    (∀ p, p ≠ d → (fs.setFile d c).lookup p = fs.lookup p) ∧
    (∀ q, (fs.setFile d c).isDirB q = fs.isDirB q) ∧
    (∀ p, fs.pathExists p = true → (fs.setFile d c).pathExists p = true) := by
  refine ⟨FS.lookup_setFile_self fs d c, ?_, fun q => rfl, ?_⟩
  · intro p hpd
    exact FS.lookup_setFile_other fs d p c hpd
  · intro p hp
    by_cases hpd : p = d
    · subst hpd
      exact FS.pathExists_of_lookup _ p c (FS.lookup_setFile_self fs p c)
    · rcases FS.pathExists_elim fs p hp with h | ⟨cc, h⟩
      · exact FS.pathExists_of_isDirB _ p h
      · exact FS.pathExists_of_lookup _ p cc
          (by rw [FS.lookup_setFile_other fs d p c hpd]; exact h)

/-- Inversion of a successful `fix_permissions` tail. -/
theorem applyPerms_done_inv {conf : EnvConf} {db : OsDb} {fs : FS} {path : FsPath}
    {tr : List Op} {fs2 : FS} {tr2 : List Op}
    (h : applyPerms conf db fs path tr = .done fs2 tr2) :
    fs2 = fs ∧ tr2 = tr ++ [Op.chmod path] ∧ FixOk conf db := by
  unfold applyPerms at h
  cases hfix : fix_permissions conf db with
  | panicked => rw [hfix] at h; cases h
  | failed m => rw [hfix] at h; cases h
  | applied u g =>
    rw [hfix] at h
    injection h with h1 h2
    exact ⟨h1.symm, h2.symm, u, g, hfix⟩

/-- Inversion of a successful `check_existing`. -/
theorem check_existing_done_inv {fs : FS} {d : FsPath} {rnd : String}
    {b : Bool} {fs2 : FS} {ctr : List Op}
    (h : check_existing fs d rnd = .ok b fs2 ctr) :
    fs.isDirB d = false ∧
    ((fs2 = fs ∧ ctr = [] ∧
        (b = true → fs.lookup d = some (.text rnd)) ∧
        (b = false → fs.lookup d = none ∨ ∃ bs, fs.lookup d = some (.blob bs))) ∨
     (b = false ∧ ∃ ex, fs.lookup d = some (.text ex) ∧ ex ≠ rnd ∧
        fs2 = fs.rename d (withExtBak d) ∧ ctr = [Op.renameFile d (withExtBak d)])) := by
  unfold check_existing at h
  by_cases hdir : fs.isDirB d = true
  · rw [if_pos hdir] at h; cases h
  · rw [if_neg hdir] at h
    refine ⟨Bool.eq_false_iff.mpr hdir, ?_⟩
    cases hl : fs.lookup d with
    | none =>
      rw [hl] at h
      injection h with h1 h2 h3
      subst h2
      subst h3
      exact Or.inl ⟨rfl, rfl, fun hb => absurd (h1.trans hb) (by decide), fun _ => Or.inl rfl⟩
    | some c =>
      rw [hl] at h
      cases c with
      | blob bs =>
        injection h with h1 h2 h3
        subst h2
        subst h3
        exact Or.inl ⟨rfl, rfl, fun hb => absurd (h1.trans hb) (by decide),
          fun _ => Or.inr ⟨bs, rfl⟩⟩
      | text ex =>
        dsimp only at h
        by_cases hex : ex = rnd
        · rw [if_pos hex] at h
          injection h with h1 h2 h3
          subst h2
          subst h3
          exact Or.inl ⟨rfl, rfl, fun _ => by rw [hex], fun hb => absurd (h1.trans hb) (by decide)⟩
        · rw [if_neg hex] at h
          injection h with h1 h2 h3
          subst h2
          subst h3
          exact Or.inr ⟨h1.symm, ex, rfl, hex, rfl, rfl⟩

/-- Inversion of a successful ancestor loop. -/
theorem processAncestors_done_inv (conf : EnvConf) (db : OsDb) :
    ∀ (l : List FsPath) (fs fs' : FS) (tr : List Op),
      processAncestors conf db fs l = .done fs' tr →
      fs'.files = fs.files ∧
      (∀ q, fs'.isDirB q = true → fs.isDirB q = true ∨ q ∈ l) ∧
      (∀ q, fs.isDirB q = true → fs'.isDirB q = true) ∧
      (∀ p, fs.pathExists p = true → fs'.pathExists p = true) ∧
      (∀ a ∈ l, fs'.pathExists a = true) ∧
      (l ≠ [] → FixOk conf db) := by
  intro l
  induction l with
  | nil =>
    intro fs fs' tr h
    unfold processAncestors at h
    injection h with h1 h2
    subst h1
    refine ⟨rfl, fun q hq => Or.inl hq, fun q hq => hq, fun p hp => hp, ?_, ?_⟩
    · intro a ha; exact absurd ha (List.not_mem_nil a)
    · intro hne; exact absurd rfl hne
  | cons a rest ih =>
    intro fs fs' tr h
    unfold processAncestors at h
    obtain ⟨fs1, tr1, hif, hk⟩ := pbind_done_inv h
    obtain ⟨fs2, tr2, hap, hk2⟩ := pbind_done_inv hk
    obtain ⟨t2, hrec, htr⟩ := padd_done_inv hk2
    obtain ⟨hfs2, htr2, hfix⟩ := applyPerms_done_inv hap
    rw [hfs2] at hrec
    have hfs1 : (fs1.files = fs.files ∧ (∀ q, fs1.isDirB q = true → fs.isDirB q = true ∨ q = a) ∧
        (∀ q, fs.isDirB q = true → fs1.isDirB q = true) ∧
        (∀ p, fs.pathExists p = true → fs1.pathExists p = true) ∧
        fs1.pathExists a = true) := by
      by_cases hex : fs.pathExists a = true
      · rw [if_pos hex] at hif
        injection hif with h1 h2
        subst h1
        exact ⟨rfl, fun q hq => Or.inl hq, fun q hq => hq, fun p hp => hp, hex⟩
      · rw [if_neg hex] at hif
        by_cases hpar : fs.isDirB a.dropLast = true
        · rw [if_pos hpar] at hif
          injection hif with h1 h2
          subst h1
          refine ⟨rfl, ?_, ?_, ?_, ?_⟩
          · intro q hq
            rcases (FS.isDirB_addDir_iff fs a q).mp hq with hq | hq
            · exact Or.inr hq.symm
            · exact Or.inl hq
          · intro q hq
            exact (FS.isDirB_addDir_iff fs a q).mpr (Or.inr hq)
          · intro p hp
            exact FS.pathExists_addDir_mono fs a p hp
          · exact FS.pathExists_of_isDirB _ a ((FS.isDirB_addDir_iff fs a a).mpr (Or.inl rfl))
        · rw [if_neg hpar] at hif
          cases hif
    obtain ⟨hfiles1, hchar1, hmono1, hexmono1, hexa1⟩ := hfs1
    obtain ⟨hfilesr, hcharr, hmonor, hexmonor, hexar, _⟩ := ih fs1 fs' t2 hrec
    refine ⟨hfilesr.trans hfiles1, ?_, ?_, ?_, ?_, fun _ => hfix⟩
    · intro q hq
      rcases hcharr q hq with hq | hq
      · rcases hchar1 q hq with hq | hq
        · exact Or.inl hq
        · exact Or.inr (by rw [hq]; exact List.mem_cons_self a rest)
      · exact Or.inr (List.mem_cons_of_mem a hq)
    · intro q hq
      exact hmonor q (hmono1 q hq)
    · intro p hp
      exact hexmonor p (hexmono1 p hp)
    · intro x hx
      rcases List.mem_cons.mp hx with hx | hx
      · subst hx
        exact hexmonor x hexa1
      · exact hexar x hx

theorem get_contents_ok_none_inv {e : Entry} (h : get_contents e = .ok none) :
    e.readErr = false ∧ ∃ b, e.content = .blob b := by
  unfold get_contents at h
  by_cases hre : e.readErr = true
  · rw [if_pos hre] at h; cases h
  · rw [if_neg hre] at h
    refine ⟨Bool.eq_false_iff.mpr hre, ?_⟩
    cases hc : e.content with
    | text s => rw [hc] at h; cases h
    | blob b => exact ⟨b, rfl⟩

theorem get_contents_ok_some_inv {e : Entry} {s : String}
    (h : get_contents e = .ok (some s)) :
    e.readErr = false ∧ e.content = .text s := by
  unfold get_contents at h
  by_cases hre : e.readErr = true
  · rw [if_pos hre] at h; cases h
  · rw [if_neg hre] at h
    refine ⟨Bool.eq_false_iff.mpr hre, ?_⟩
    cases hc : e.content with
    | text t => rw [hc] at h; injection h with h1; injection h1 with h2; rw [h2]
    | blob b => rw [hc] at h; cases h

/-- Everything a successful per-entry step of the first loop
guarantees. -/
structure StepFacts (w : World) (conf : EnvConf) (n : String) (fs fs' : FS)
    (e : Entry) (push : Option (Content × FsPath)) : Prop where
  readOk : e.readErr = false
  frame : ∀ p, p ≠ destOf conf e → p ≠ withExtBak (destOf conf e) →
    fs'.lookup p = fs.lookup p
  exMono : ∀ p, fs.pathExists p = true → fs'.pathExists p = true
  dirsChar : ∀ q, fs'.isDirB q = true → fs.isDirB q = true ∨ q ∈ anc conf e
  dirsMono : ∀ q, fs.isDirB q = true → fs'.isDirB q = true
  ancDone : ∀ a ∈ anc conf e, fs'.pathExists a = true
  fixAnc : anc conf e ≠ [] → FixOk conf w.db
  content : (∃ b, e.content = .blob b ∧ push = some (.blob b, destOf conf e) ∧
              fs'.files = fs.files) ∨
            (∃ s out, e.content = .text s ∧ push = none ∧
              render_entry w conf n s = some out ∧
              fs'.lookup (destOf conf e) = some (.text out) ∧
              fs.isDirB (destOf conf e) = false ∧ FixOk conf w.db)

theorem walkStep_done_inv {w : World} {conf : EnvConf} {n : String} {fs fs' : FS}
    {e : Entry} {push : Option (Content × FsPath)} {tr : List Op}
    (h : walkStep w conf n fs e = .done (fs', push) tr) :
    StepFacts w conf n fs fs' e push := by
  unfold walkStep at h
  obtain ⟨fs1, tr1, hanc, hk⟩ := pbind_done_inv h
  obtain ⟨hfiles1, hchar1, hmono1, hexmono1, hexa1, hfix1⟩ :=
    processAncestors_done_inv conf w.db _ fs fs1 tr1 hanc
  have hlook1 : ∀ p, fs1.lookup p = fs.lookup p := by
    intro p
    unfold FS.lookup
    rw [hfiles1]
  have hex1 : ∀ p, fs.pathExists p = true → fs1.pathExists p = true := hexmono1
  cases hgc : get_contents e with
  | panicked => rw [hgc] at hk; simp at hk
  | ok u =>
    rw [hgc] at hk
    cases u with
    | none =>
      dsimp only at hk
      obtain ⟨hre, b, hb⟩ := get_contents_ok_none_inv hgc
      injection hk with hk1 hk2
      injection hk1 with hk1a hk1b
      subst hk1a
      refine ⟨hre, fun p _ _ => hlook1 p, hex1, hchar1, hmono1, hexa1, hfix1, ?_⟩
      exact Or.inl ⟨b, hb, by rw [← hk1b, hb], hfiles1⟩
    | some contents =>
      dsimp only at hk
      obtain ⟨hre, hct⟩ := get_contents_ok_some_inv hgc
      cases hrd : render_entry w conf n contents with
      | none => rw [hrd] at hk; simp at hk
      | some rendered =>
        rw [hrd] at hk
        dsimp only at hk
        cases hce : check_existing fs1 (destOf conf e) rendered with
        | panicked => rw [hce] at hk; simp at hk
        | ok b fs2 ctr =>
          rw [hce] at hk
          dsimp only at hk
          obtain ⟨hnotdir1, hcases⟩ := check_existing_done_inv hce
          have hnotdir : fs.isDirB (destOf conf e) = false := by
            cases hd0 : fs.isDirB (destOf conf e) with
            | false => rfl
            | true => rw [hmono1 _ hd0] at hnotdir1; cases hnotdir1
          cases b with
          | true =>
            rw [if_pos rfl] at hk
            obtain ⟨fs3, tr3, hap, hk2⟩ := pbind_done_inv hk
            obtain ⟨hfs3, htr3, hfixok⟩ := applyPerms_done_inv hap
            injection hk2 with hk2a hk2b
            injection hk2a with hk2c hk2d
            rcases hcases with ⟨hfs2, hctr, hup, _⟩ | ⟨hbf, _⟩
            · have hfseq : fs' = fs1 := by rw [← hk2c, hfs3, hfs2]
              subst hfseq
              refine ⟨hre, fun p _ _ => hlook1 p, hex1, hchar1, hmono1, hexa1, hfix1, ?_⟩
              refine Or.inr ⟨contents, rendered, hct, hk2d.symm, hrd, ?_, hnotdir, hfixok⟩
              rw [hlook1]
              rw [hlook1] at hup
              exact hup rfl
            · cases hbf
          | false =>
            rw [if_neg Bool.false_ne_true] at hk
            obtain ⟨fs3, tr3, hap, hk2⟩ := pbind_done_inv hk
            obtain ⟨hfs3, htr3, hfixok⟩ := applyPerms_done_inv hap
            injection hk2 with hk2a hk2b
            injection hk2a with hk2c hk2d
            have hfseq : fs' = fs2.setFile (destOf conf e) (.text rendered) := by
              rw [← hk2c, hfs3]
            subst hfseq
            rcases hcases with ⟨hfs2, hctr, _, _⟩ | ⟨_, ex, hlex, hexne, hfs2, hctr⟩
            · rw [hfs2]
              obtain ⟨hw1, hw2, hw3, hw4⟩ := FS.write_fresh_facts fs1 (destOf conf e) (.text rendered)
              refine ⟨hre, ?_, ?_, ?_, ?_, ?_, hfix1, ?_⟩
              · intro p hpd hpb
                rw [hw2 p hpd, hlook1]
              · intro p hp
                exact hw4 p (hex1 p hp)
              · intro q hq
                rw [hw3] at hq
                exact hchar1 q hq
              · intro q hq
                rw [hw3]
                exact hmono1 q hq
              · intro a ha
                exact hw4 a (hexa1 a ha)
              · exact Or.inr ⟨contents, rendered, hct, hk2d.symm, hrd, hw1, hnotdir, hfixok⟩
            · rw [hfs2]
              have hsrc : fs1.lookup (destOf conf e) = some (.text ex) := hlex
              obtain ⟨hw1, hw2, hw3, hw4⟩ :=
                FS.write_after_rename_facts fs1 (destOf conf e) (.text rendered) (.text ex) hsrc
              refine ⟨hre, ?_, ?_, ?_, ?_, ?_, hfix1, ?_⟩
              · intro p hpd hpb
                rw [hw2 p hpd hpb, hlook1]
              · intro p hp
                exact hw4 p (hex1 p hp)
              · intro q hq
                rw [hw3] at hq
                exact hchar1 q hq
              · intro q hq
                rw [hw3]
                exact hmono1 q hq
              · intro a ha
                exact hw4 a (hexa1 a ha)
              · exact Or.inr ⟨contents, rendered, hct, hk2d.symm, hrd, hw1, hnotdir, hfixok⟩

/-- Within one list of entries: no two map to the same destination, and
no backup path coincides with any destination. -/
def EntriesNoClash (conf : EnvConf) (entries : List Entry) : Prop :=
  entries.Pairwise (fun e1 e2 => destOf conf e1 ≠ destOf conf e2) ∧
  ∀ e1 ∈ entries, ∀ e2 ∈ entries, withExtBak (destOf conf e1) ≠ destOf conf e2

theorem EntriesNoClash_of_cons {conf : EnvConf} {e : Entry} {rest : List Entry}
    (h : EntriesNoClash conf (e :: rest)) : EntriesNoClash conf rest := by
  refine ⟨List.Pairwise.of_cons h.1, ?_⟩
  intro e1 h1 e2 h2
  exact h.2 e1 (List.mem_cons_of_mem e h1) e2 (List.mem_cons_of_mem e h2)

/-- Everything a successful first loop guarantees. -/
structure Phase1Facts (w : World) (conf : EnvConf) (n : String) (fs fs' : FS)
    (entries : List Entry) (pushes : List (Content × FsPath)) : Prop where
  readOk : ∀ e ∈ entries, e.readErr = false
  frame : ∀ p, (∀ e ∈ entries, p ≠ destOf conf e ∧ p ≠ withExtBak (destOf conf e)) →
    fs'.lookup p = fs.lookup p
  exMono : ∀ p, fs.pathExists p = true → fs'.pathExists p = true
  dirsChar : ∀ q, fs'.isDirB q = true → fs.isDirB q = true ∨ ∃ e ∈ entries, q ∈ anc conf e
  dirsMono : ∀ q, fs.isDirB q = true → fs'.isDirB q = true
  ancDone : ∀ e ∈ entries, ∀ a ∈ anc conf e, fs'.pathExists a = true
  fixNeeded : ∀ e ∈ entries, (anc conf e ≠ [] ∨ ∃ s, e.content = .text s) →
    FixOk conf w.db
  pushesChar : ∀ bc ∈ pushes, ∃ e ∈ entries, ∃ b, e.content = .blob b ∧
    bc = (Content.blob b, destOf conf e)
  blobsPushed : ∀ e ∈ entries, ∀ b, e.content = .blob b →
    (Content.blob b, destOf conf e) ∈ pushes
  pushesPairwise : EntriesNoClash conf entries →
    pushes.Pairwise (fun b1 b2 => b1.2 ≠ b2.2)
  textSet : EntriesNoClash conf entries → ∀ e ∈ entries, ∀ s, e.content = .text s →
    ∃ out, render_entry w conf n s = some out ∧
      fs'.lookup (destOf conf e) = some (.text out)
  textNotDir : ∀ e ∈ entries, ∀ s, e.content = .text s →
    fs.isDirB (destOf conf e) = false

theorem phase1_done_inv (w : World) (conf : EnvConf) (n : String) :
    ∀ (entries : List Entry) (fs fs' : FS) (pushes : List (Content × FsPath))
      (tr : List Op),
      phase1 w conf n fs entries = .done (fs', pushes) tr →
      Phase1Facts w conf n fs fs' entries pushes := by
  intro entries
  induction entries with
  | nil =>
    intro fs fs' pushes tr h
    unfold phase1 at h
    injection h with h1 h2
    injection h1 with h1a h1b
    subst h1a
    subst h1b
    exact ⟨fun e he => absurd he (List.not_mem_nil e),
      fun p _ => rfl, fun p hp => hp, fun q hq => Or.inl hq, fun q hq => hq,
      fun e he => absurd he (List.not_mem_nil e),
      fun e he => absurd he (List.not_mem_nil e),
      fun bc hbc => absurd hbc (List.not_mem_nil bc),
      fun e he => absurd he (List.not_mem_nil e),
      fun _ => List.Pairwise.nil,
      fun _ e he => absurd he (List.not_mem_nil e),
      fun e he => absurd he (List.not_mem_nil e)⟩
  | cons e rest ih =>
    intro fs fs' pushes tr h
    unfold phase1 at h
    obtain ⟨a, tr0, hstep, hk⟩ := pbind_done_inv h
    obtain ⟨t2, hk2, ht⟩ := padd_done_inv hk
    obtain ⟨b2, t3, hrec, hk3⟩ := pbind_done_inv hk2
    injection hk3 with hk3a hk3b
    injection hk3a with hk3c hk3d
    have sf : StepFacts w conf n fs a.1 e a.2 :=
      walkStep_done_inv (show walkStep w conf n fs e = .done (a.1, a.2) tr0 by rw [hstep])
    have pf : Phase1Facts w conf n a.1 fs' rest b2.2 := by
      refine ih a.1 fs' b2.2 t3 ?_
      rw [hrec, ← hk3c]
    refine ⟨?_, ?_, ?_, ?_, ?_, ?_, ?_, ?_, ?_, ?_, ?_, ?_⟩
    · intro x hx
      rcases List.mem_cons.mp hx with hx | hx
      · subst hx; exact sf.readOk
      · exact pf.readOk x hx
    · intro p hp
      have h1 := hp e (List.mem_cons_self e rest)
      rw [pf.frame p (fun x hx => hp x (List.mem_cons_of_mem e hx))]
      exact sf.frame p h1.1 h1.2
    · intro p hp
      exact pf.exMono p (sf.exMono p hp)
    · intro q hq
      rcases pf.dirsChar q hq with hq | ⟨x, hx, hqx⟩
      · rcases sf.dirsChar q hq with hq | hq
        · exact Or.inl hq
        · exact Or.inr ⟨e, List.mem_cons_self e rest, hq⟩
      · exact Or.inr ⟨x, List.mem_cons_of_mem e hx, hqx⟩
    · intro q hq
      exact pf.dirsMono q (sf.dirsMono q hq)
    · intro x hx a2 ha2
      rcases List.mem_cons.mp hx with hx | hx
      · subst hx
        exact pf.exMono a2 (sf.ancDone a2 ha2)
      · exact pf.ancDone x hx a2 ha2
    · intro x hx hneed
      rcases List.mem_cons.mp hx with hx | hx
      · subst hx
        rcases hneed with hneed | ⟨s, hs⟩
        · exact sf.fixAnc hneed
        · rcases sf.content with ⟨b, hb, _, _⟩ | ⟨s2, out, _, _, _, _, _, hfix⟩
          · rw [hs] at hb; cases hb
          · exact hfix
      · exact pf.fixNeeded x hx hneed
    · intro bc hbc
      rw [← hk3d] at hbc
      rcases List.mem_append.mp hbc with hbc | hbc
      · rcases sf.content with ⟨b, hb, hpush, _⟩ | ⟨s, out, _, hpush, _, _, _, _⟩
        · rw [hpush] at hbc
          rw [Option.toList_some, List.mem_singleton] at hbc
          exact ⟨e, List.mem_cons_self e rest, b, hb, hbc⟩
        · rw [hpush] at hbc
          exact absurd hbc (List.not_mem_nil bc)
      · obtain ⟨x, hx, b, hb, hbc2⟩ := pf.pushesChar bc hbc
        exact ⟨x, List.mem_cons_of_mem e hx, b, hb, hbc2⟩
    · intro x hx b hb
      rw [← hk3d]
      rcases List.mem_cons.mp hx with hx | hx
      · subst hx
        rcases sf.content with ⟨b2x, hb2, hpush, _⟩ | ⟨s, out, hs, _, _, _, _, _⟩
        · rw [hb] at hb2
          injection hb2 with hbb
          subst hbb
          rw [hpush]
          exact List.mem_append.mpr (Or.inl (by rw [Option.toList_some]; exact List.mem_singleton.mpr rfl))
        · rw [hb] at hs; cases hs
      · exact List.mem_append.mpr (Or.inr (pf.blobsPushed x hx b hb))
    · intro hnc
      rw [← hk3d]
      rcases sf.content with ⟨b, hb, hpush, _⟩ | ⟨s, out, _, hpush, _, _, _, _⟩
      · rw [hpush, Option.toList_some]
        refine (List.pairwise_append).mpr
          ⟨List.pairwise_singleton _ _, pf.pushesPairwise (EntriesNoClash_of_cons hnc), ?_⟩
        intro x hx y hy
        rw [List.mem_singleton] at hx
        subst hx
        obtain ⟨e2, he2, b2x, hb2, hy2⟩ := pf.pushesChar y hy
        rw [hy2]
        show destOf conf e ≠ destOf conf e2
        exact (List.pairwise_cons.mp hnc.1).1 e2 he2
      · rw [hpush, Option.toList_none, List.nil_append]
        exact pf.pushesPairwise (EntriesNoClash_of_cons hnc)
    · intro hnc x hx s hs
      rcases List.mem_cons.mp hx with hx | hx
      · subst hx
        rcases sf.content with ⟨b, hb, _, _⟩ | ⟨s2, out, hs2, _, hrd, hset, _, _⟩
        · rw [hs] at hb; cases hb
        · have hs2eq : s2 = s := by
            rw [hs] at hs2
            injection hs2 with h2
            exact h2.symm
          subst hs2eq
          refine ⟨out, hrd, ?_⟩
          rw [pf.frame (destOf conf x) ?_]
          · exact hset
          · intro y hy
            constructor
            · exact (List.pairwise_cons.mp hnc.1).1 y hy
            · intro hcontr
              exact hnc.2 y (List.mem_cons_of_mem x hy) x (List.mem_cons_self x rest)
                (by rw [hcontr])
      · exact pf.textSet (EntriesNoClash_of_cons hnc) x hx s hs
    · intro x hx s hs
      rcases List.mem_cons.mp hx with hx | hx
      · subst hx
        rcases sf.content with ⟨b, hb, _, _⟩ | ⟨s2, out, _, _, _, _, hnotdir, _⟩
        · rw [hs] at hb; cases hb
        · exact hnotdir
      · cases hd : fs.isDirB (destOf conf x) with
        | false => rfl
        | true =>
          have := pf.textNotDir x hx s hs
          rw [sf.dirsMono _ hd] at this
          cases this

theorem blobStep_done_inv {w : World} {conf : EnvConf} {fs fs' : FS}
    {bc : Content × FsPath} {tr : List Op}
    (h : blobStep w conf fs bc = .done fs' tr) :
    fs'.lookup bc.2 = some bc.1 ∧
    (∀ p, p ≠ bc.2 → p ≠ withExtBak bc.2 → fs'.lookup p = fs.lookup p) ∧
    (∀ q, fs'.isDirB q = fs.isDirB q) ∧
    (∀ p, fs.pathExists p = true → fs'.pathExists p = true) := by
  unfold blobStep at h
  cases hl : fs.lookup bc.2 with
  | none =>
    rw [hl] at h
    obtain ⟨hfs, _, _⟩ := applyPerms_done_inv h
    rw [hfs]
    obtain ⟨hw1, hw2, hw3, hw4⟩ := FS.write_fresh_facts fs bc.2 bc.1
    exact ⟨hw1, fun p hpd _ => hw2 p hpd, fun q => hw3 q ▸ rfl, hw4⟩
  | some existing =>
    rw [hl] at h
    dsimp only at h
    by_cases heq : existing = bc.1
    · rw [if_pos heq] at h
      injection h with h1 h2
      rw [← h1]
      refine ⟨by rw [hl, heq], fun p _ _ => rfl, fun q => rfl, fun p hp => hp⟩
    · rw [if_neg heq] at h
      obtain ⟨hfs, _, _⟩ := applyPerms_done_inv h
      rw [hfs]
      obtain ⟨hw1, hw2, hw3, hw4⟩ := FS.write_after_rename_facts fs bc.2 bc.1 existing hl
      exact ⟨hw1, hw2, hw3, hw4⟩

/-- Within one pushed list: no two pairs share a destination, and no
backup path coincides with any destination. -/
def PushesNoClash (pushes : List (Content × FsPath)) : Prop :=
  pushes.Pairwise (fun b1 b2 => b1.2 ≠ b2.2) ∧
  ∀ b1 ∈ pushes, ∀ b2 ∈ pushes, withExtBak b1.2 ≠ b2.2

/-- Everything a successful second loop guarantees. -/
structure Phase2Facts (fs fs' : FS) (pushes : List (Content × FsPath)) : Prop where
  frame : ∀ p, (∀ bc ∈ pushes, p ≠ bc.2 ∧ p ≠ withExtBak bc.2) →
    fs'.lookup p = fs.lookup p
  exMono : ∀ p, fs.pathExists p = true → fs'.pathExists p = true
  dirsEq : ∀ q, fs'.isDirB q = fs.isDirB q
  written : PushesNoClash pushes → ∀ bc ∈ pushes, fs'.lookup bc.2 = some bc.1

theorem PushesNoClash_of_cons {bc : Content × FsPath} {rest : List (Content × FsPath)}
    (h : PushesNoClash (bc :: rest)) : PushesNoClash rest := by
  refine ⟨List.Pairwise.of_cons h.1, ?_⟩
  intro b1 h1 b2 h2
  exact h.2 b1 (List.mem_cons_of_mem bc h1) b2 (List.mem_cons_of_mem bc h2)

theorem phase2_done_inv (w : World) (conf : EnvConf) :
    ∀ (pushes : List (Content × FsPath)) (fs fs' : FS) (tr : List Op),
      phase2 w conf fs pushes = .done fs' tr →
      Phase2Facts fs fs' pushes := by
  intro pushes
  induction pushes with
  | nil =>
    intro fs fs' tr h
    unfold phase2 at h
    injection h with h1 h2
    rw [← h1]
    exact ⟨fun p _ => rfl, fun p hp => hp, fun q => rfl,
      fun _ bc hbc => absurd hbc (List.not_mem_nil bc)⟩
  | cons bc rest ih =>
    intro fs fs' tr h
    unfold phase2 at h
    obtain ⟨fs1, tr0, hstep, hk⟩ := pbind_done_inv h
    obtain ⟨t2, hrec, ht⟩ := padd_done_inv hk
    obtain ⟨hw1, hw2, hw3, hw4⟩ := blobStep_done_inv hstep
    have pf : Phase2Facts fs1 fs' rest := ih fs1 fs' t2 hrec
    refine ⟨?_, ?_, ?_, ?_⟩
    · intro p hp
      have h1 := hp bc (List.mem_cons_self bc rest)
      rw [pf.frame p (fun x hx => hp x (List.mem_cons_of_mem bc hx))]
      exact hw2 p h1.1 h1.2
    · intro p hp
      exact pf.exMono p (hw4 p hp)
    · intro q
      rw [pf.dirsEq q, hw3 q]
    · intro hnc x hx
      rcases List.mem_cons.mp hx with hx | hx
      · subst hx
        rw [pf.frame x.2 ?_]
        · exact hw1
        · intro y hy
          constructor
          · exact (List.pairwise_cons.mp hnc.1).1 y hy
          · intro hcontr
            exact hnc.2 y (List.mem_cons_of_mem x hy) x (List.mem_cons_self x rest)
              (by rw [hcontr])
      · exact pf.written (PushesNoClash_of_cons hnc) x hx

/-- Everything a successful whole-context walk guarantees. -/
structure CtxFacts (w : World) (conf : EnvConf) (fs fs' : FS) (c : CtxRun) : Prop where
  readOk : ∀ e ∈ c.entries, e.readErr = false
  frame : ∀ p, (∀ e ∈ c.entries, p ≠ destOf conf e ∧ p ≠ withExtBak (destOf conf e)) →
    fs'.lookup p = fs.lookup p
  exMono : ∀ p, fs.pathExists p = true → fs'.pathExists p = true
  dirsChar : ∀ q, fs'.isDirB q = true → fs.isDirB q = true ∨ ∃ e ∈ c.entries, q ∈ anc conf e
  dirsMono : ∀ q, fs.isDirB q = true → fs'.isDirB q = true
  ancDone : ∀ e ∈ c.entries, ∀ a ∈ anc conf e, fs'.pathExists a = true
  fixNeeded : ∀ e ∈ c.entries, (anc conf e ≠ [] ∨ ∃ s, e.content = .text s) →
    FixOk conf w.db
  synced : EntriesNoClash conf c.entries → ∀ e ∈ c.entries,
    (∀ s, e.content = .text s → ∃ out, render_entry w conf c.name s = some out ∧
      fs'.lookup (destOf conf e) = some (.text out)) ∧
    (∀ b, e.content = .blob b → fs'.lookup (destOf conf e) = some (.blob b))
  textNotDir : ∀ e ∈ c.entries, ∀ s, e.content = .text s →
    fs.isDirB (destOf conf e) = false

theorem walk_directory_done_inv {w : World} {conf : EnvConf} {c : CtxRun}
    {fs fs' : FS} {tr : List Op}
    (h : walk_directory w conf c fs = .done fs' tr) :
    CtxFacts w conf fs fs' c := by
  unfold walk_directory at h
  obtain ⟨a, tr0, hp1, hk⟩ := pbind_done_inv h
  obtain ⟨t2, hrec, ht⟩ := padd_done_inv hk
  have p1 : Phase1Facts w conf c.name fs a.1 c.entries a.2 :=
    phase1_done_inv w conf c.name c.entries fs a.1 a.2 tr0 (by rw [hp1])
  have p2 : Phase2Facts a.1 fs' a.2 := phase2_done_inv w conf a.2 a.1 fs' t2 hrec
  have hdirsEq1 : ∀ q, fs'.isDirB q = a.1.isDirB q := p2.dirsEq
  have hpushframe : ∀ p, (∀ e ∈ c.entries, p ≠ destOf conf e ∧ p ≠ withExtBak (destOf conf e)) →
      (∀ bc ∈ a.2, p ≠ bc.2 ∧ p ≠ withExtBak bc.2) := by
    intro p hp bc hbc
    obtain ⟨e, he, b, hb, hbc2⟩ := p1.pushesChar bc hbc
    rw [hbc2]
    exact hp e he
  refine ⟨p1.readOk, ?_, ?_, ?_, ?_, ?_, p1.fixNeeded, ?_, p1.textNotDir⟩
  · intro p hp
    rw [p2.frame p (hpushframe p hp)]
    exact p1.frame p hp
  · intro p hp
    exact p2.exMono p (p1.exMono p hp)
  · intro q hq
    rw [hdirsEq1 q] at hq
    exact p1.dirsChar q hq
  · intro q hq
    rw [hdirsEq1 q]
    exact p1.dirsMono q hq
  · intro e he a2 ha2
    exact p2.exMono a2 (p1.ancDone e he a2 ha2)
  · intro hnc e he
    have hpnc : PushesNoClash a.2 := by
      refine ⟨p1.pushesPairwise hnc, ?_⟩
      intro b1 h1 b2 h2
      obtain ⟨e1, he1, bb1, _, hb1⟩ := p1.pushesChar b1 h1
      obtain ⟨e2, he2, bb2, _, hb2⟩ := p1.pushesChar b2 h2
      rw [hb1, hb2]
      exact hnc.2 e1 he1 e2 he2
    constructor
    · intro s hs
      obtain ⟨out, hrd, hset⟩ := p1.textSet hnc e he s hs
      refine ⟨out, hrd, ?_⟩
      rw [p2.frame (destOf conf e) ?_]
      · exact hset
      · intro bc hbc
        obtain ⟨e2, he2, b2, hb2, hbc2⟩ := p1.pushesChar bc hbc
        rw [hbc2]
        have hne : e ≠ e2 := by
          intro hcontr
          rw [← hcontr, hs] at hb2
          cases hb2
        constructor
        · refine hnc.1.forall (fun x y hxy => hxy.symm) ?_ ?_ ?_ |>.symm.symm
          · exact he
          · exact he2
          · exact hne
        · intro hcontr
          exact hnc.2 e2 he2 e he (by rw [hcontr])
    · intro b hb
      exact p2.written hpnc (Content.blob b, destOf conf e) (p1.blobsPushed e he b hb)

/-- All records of a run: each context name paired with each of the
entries its enumeration yields, in processing order. -/
def records (ctxs : List CtxRun) : List (String × Entry) :=
  ctxs.bind (fun c => c.entries.map (fun e => (c.name, e)))

theorem records_cons (c : CtxRun) (rest : List CtxRun) :
    records (c :: rest) = c.entries.map (fun e => (c.name, e)) ++ records rest := by
  simp [records]

theorem mem_records_head {c : CtxRun} {rest : List CtxRun} {e : Entry}
    (he : e ∈ c.entries) : (c.name, e) ∈ records (c :: rest) := by
  rw [records_cons]
  exact List.mem_append.mpr (Or.inl (List.mem_map.mpr ⟨e, he, rfl⟩))

theorem mem_records_tail {c : CtxRun} {rest : List CtxRun} {r : String × Entry}
    (hr : r ∈ records rest) : r ∈ records (c :: rest) := by
  rw [records_cons]
  exact List.mem_append.mpr (Or.inr hr)

theorem mem_records_cons_elim {c : CtxRun} {rest : List CtxRun} {r : String × Entry}
    (hr : r ∈ records (c :: rest)) :
    (∃ e ∈ c.entries, r = (c.name, e)) ∨ r ∈ records rest := by
  rw [records_cons] at hr
  rcases List.mem_append.mp hr with hr | hr
  · obtain ⟨e, he, hre⟩ := List.mem_map.mp hr
    exact Or.inl ⟨e, he, hre.symm⟩
  · exact Or.inr hr

/-- The global clash-freedom requirements on a run's records: pairwise
distinct destinations, no backup path equal to any destination, no
relative path a proper prefix of another (files in a tree), and no empty
relative path (the enumerator yields only files strictly below the
context root). -/
def RecordsNoClash (conf : EnvConf) (rs : List (String × Entry)) : Prop :=
  rs.Pairwise (fun r1 r2 => destOf conf r1.2 ≠ destOf conf r2.2) ∧
  (∀ r1 ∈ rs, ∀ r2 ∈ rs, withExtBak (destOf conf r1.2) ≠ destOf conf r2.2) ∧
  (∀ r1 ∈ rs, ∀ r2 ∈ rs, r1.2.rel <+: r2.2.rel → r1.2.rel = r2.2.rel) ∧
  (∀ r ∈ rs, r.2.rel ≠ [])

theorem RecordsNoClash_tail {conf : EnvConf} {c : CtxRun} {rest : List CtxRun}
    (h : RecordsNoClash conf (records (c :: rest))) :
    RecordsNoClash conf (records rest) := by
  obtain ⟨h1, h2, h3, h4⟩ := h
  rw [records_cons] at h1 h2 h3 h4
  refine ⟨((List.pairwise_append).mp h1).2.1, ?_, ?_, ?_⟩
  · intro r1 hr1 r2 hr2
    exact h2 r1 (List.mem_append.mpr (Or.inr hr1)) r2 (List.mem_append.mpr (Or.inr hr2))
  · intro r1 hr1 r2 hr2
    exact h3 r1 (List.mem_append.mpr (Or.inr hr1)) r2 (List.mem_append.mpr (Or.inr hr2))
  · intro r hr
    exact h4 r (List.mem_append.mpr (Or.inr hr))

theorem pairwise_of_pairwise_map {α β : Type} (f : α → β) (R : β → β → Prop)
    {l : List α} (h : (l.map f).Pairwise R) :
    l.Pairwise (fun a b => R (f a) (f b)) := by
  induction l with
  | nil => exact List.Pairwise.nil
  | cons x xs ih =>
    rw [List.map_cons, List.pairwise_cons] at h
    exact List.Pairwise.cons
      (fun y hy => h.1 (f y) (List.mem_map.mpr ⟨y, hy, rfl⟩)) (ih h.2)

theorem RecordsNoClash_head {conf : EnvConf} {c : CtxRun} {rest : List CtxRun}
    (h : RecordsNoClash conf (records (c :: rest))) :
    EntriesNoClash conf c.entries := by
  obtain ⟨h1, h2, _, _⟩ := h
  rw [records_cons] at h1 h2
  constructor
  · have hleft := ((List.pairwise_append).mp h1).1
    exact pairwise_of_pairwise_map (fun e => ((c.name : String), e))
      (fun r1 r2 => destOf conf r1.2 ≠ destOf conf r2.2) hleft
  · intro e1 he1 e2 he2
    exact h2 (c.name, e1)
      (List.mem_append.mpr (Or.inl (List.mem_map.mpr ⟨e1, he1, rfl⟩)))
      (c.name, e2)
      (List.mem_append.mpr (Or.inl (List.mem_map.mpr ⟨e2, he2, rfl⟩)))

/-- Everything a successful context loop guarantees. -/
structure RunFacts (w : World) (conf : EnvConf) (fs fs' : FS)
    (ctxs : List CtxRun) : Prop where
  rootsOk : ∀ c ∈ ctxs, c.rootOk = true
  readOk : ∀ r ∈ records ctxs, r.2.readErr = false
  frame : ∀ p, (∀ r ∈ records ctxs,
      p ≠ destOf conf r.2 ∧ p ≠ withExtBak (destOf conf r.2)) →
    fs'.lookup p = fs.lookup p
  exMono : ∀ p, fs.pathExists p = true → fs'.pathExists p = true
  dirsChar : ∀ q, fs'.isDirB q = true →
    fs.isDirB q = true ∨ ∃ r ∈ records ctxs, q ∈ anc conf r.2
  dirsMono : ∀ q, fs.isDirB q = true → fs'.isDirB q = true
  ancDone : ∀ r ∈ records ctxs, ∀ a ∈ anc conf r.2, fs'.pathExists a = true
  fixNeeded : ∀ r ∈ records ctxs,
    (anc conf r.2 ≠ [] ∨ ∃ s, r.2.content = .text s) → FixOk conf w.db
  synced : RecordsNoClash conf (records ctxs) → ∀ r ∈ records ctxs,
    (∀ s, r.2.content = .text s → ∃ out, render_entry w conf r.1 s = some out ∧
      fs'.lookup (destOf conf r.2) = some (.text out)) ∧
    (∀ b, r.2.content = .blob b → fs'.lookup (destOf conf r.2) = some (.blob b))
  textNotDir : ∀ r ∈ records ctxs, ∀ s, r.2.content = .text s →
    fs.isDirB (destOf conf r.2) = false

theorem runContexts_done_inv (w : World) (conf : EnvConf) :
    ∀ (ctxs : List CtxRun) (fs fs' : FS) (tr : List Op),
      runContexts w conf fs ctxs = .done fs' tr →
      RunFacts w conf fs fs' ctxs := by
  intro ctxs
  induction ctxs with
  | nil =>
    intro fs fs' tr h
    unfold runContexts at h
    injection h with h1 h2
    rw [← h1]
    exact ⟨fun c hc => absurd hc (List.not_mem_nil c),
      fun r hr => absurd hr (List.not_mem_nil r),
      fun p _ => rfl, fun p hp => hp, fun q hq => Or.inl hq, fun q hq => hq,
      fun r hr => absurd hr (List.not_mem_nil r),
      fun r hr => absurd hr (List.not_mem_nil r),
      fun _ r hr => absurd hr (List.not_mem_nil r),
      fun r hr => absurd hr (List.not_mem_nil r)⟩
  | cons c rest ih =>
    intro fs fs' tr h
    unfold runContexts at h
    cases hok : c.rootOk with
    | false => rw [hok] at h; simp at h
    | true =>
      rw [hok] at h
      rw [if_pos rfl] at h
      obtain ⟨fs1, tr0, hwd, hk⟩ := pbind_done_inv h
      obtain ⟨t2, hrec, ht⟩ := padd_done_inv hk
      have cf : CtxFacts w conf fs fs1 c := walk_directory_done_inv hwd
      have rf : RunFacts w conf fs1 fs' rest := ih fs1 fs' t2 hrec
      refine ⟨?_, ?_, ?_, ?_, ?_, ?_, ?_, ?_, ?_, ?_⟩
      · intro x hx
        rcases List.mem_cons.mp hx with hx | hx
        · subst hx; exact hok
        · exact rf.rootsOk x hx
      · intro r hr
        rcases mem_records_cons_elim hr with ⟨e, he, hre⟩ | hr
        · rw [hre]; exact cf.readOk e he
        · exact rf.readOk r hr
      · intro p hp
        rw [rf.frame p (fun r hr => hp r (mem_records_tail hr))]
        refine cf.frame p ?_
        intro e he
        exact hp (c.name, e) (mem_records_head he)
      · intro p hp
        exact rf.exMono p (cf.exMono p hp)
      · intro q hq
        rcases rf.dirsChar q hq with hq | ⟨r, hr, hqr⟩
        · rcases cf.dirsChar q hq with hq | ⟨e, he, hqe⟩
          · exact Or.inl hq
          · exact Or.inr ⟨(c.name, e), mem_records_head he, hqe⟩
        · exact Or.inr ⟨r, mem_records_tail hr, hqr⟩
      · intro q hq
        exact rf.dirsMono q (cf.dirsMono q hq)
      · intro r hr a2 ha2
        rcases mem_records_cons_elim hr with ⟨e, he, hre⟩ | hr
        · rw [hre] at ha2
          exact rf.exMono a2 (cf.ancDone e he a2 ha2)
        · exact rf.ancDone r hr a2 ha2
      · intro r hr hneed
        rcases mem_records_cons_elim hr with ⟨e, he, hre⟩ | hr
        · rw [hre] at hneed
          exact cf.fixNeeded e he hneed
        · exact rf.fixNeeded r hr hneed
      · intro hnc r hr
        rcases mem_records_cons_elim hr with ⟨e, he, hre⟩ | hr
        · subst hre
          have hsy := cf.synced (RecordsNoClash_head hnc) e he
          have hpres : fs'.lookup (destOf conf e) = fs1.lookup (destOf conf e) := by
            refine rf.frame (destOf conf e) ?_
            intro r2 hr2
            constructor
            · have := hnc.1
              rw [records_cons] at this
              exact ((List.pairwise_append).mp this).2.2 (c.name, e)
                (List.mem_map.mpr ⟨e, he, rfl⟩) r2 hr2
            · intro hcontr
              exact hnc.2.1 r2 (mem_records_tail hr2) (c.name, e)
                (mem_records_head he) (by rw [hcontr])
          constructor
          · intro s hs
            obtain ⟨out, hrd, hset⟩ := hsy.1 s hs
            exact ⟨out, hrd, by rw [hpres]; exact hset⟩
          · intro b hb
            rw [hpres]
            exact hsy.2 b hb
        · exact rf.synced (RecordsNoClash_tail hnc) r hr
      · intro r hr s hs
        rcases mem_records_cons_elim hr with ⟨e, he, hre⟩ | hr
        · rw [hre]
          rw [hre] at hs
          exact cf.textNotDir e he s hs
        · cases hd : fs.isDirB (destOf conf r.2) with
          | false => rfl
          | true =>
            have := rf.textNotDir r hr s hs
            rw [cf.dirsMono _ hd] at this
            cases this

/-! ### C5: second-run idempotence — the no-op direction -/

/-- A trace consisting only of permission renormalization. -/
def AllChmod (tr : List Op) : Prop :=
  ∀ op ∈ tr, ∃ p, op = Op.chmod p

theorem AllChmod_nil : AllChmod [] :=
  fun op hop => absurd hop (List.not_mem_nil op)

theorem AllChmod_append {t1 t2 : List Op} (h1 : AllChmod t1) (h2 : AllChmod t2) :
    AllChmod (t1 ++ t2) := by
  intro op hop
  rcases List.mem_append.mp hop with h | h
  · exact h1 op h
  · exact h2 op h

theorem AllChmod_single (p : FsPath) : AllChmod [Op.chmod p] := by
  intro op hop
  rw [List.mem_singleton] at hop
  exact ⟨p, hop⟩

/-- A kept ancestor is a prefix of the walked path and extends the
root. -/
theorem mem_ancestorsUnder_inv {root p a : FsPath} (h : a ∈ ancestorsUnder root p) :
    a <+: p ∧ root <+: a := by
  constructor
  · have h1 := List.mem_of_mem_filter h
    obtain ⟨k, _, hk⟩ := mem_ancestorChain p a h1
    rw [hk]
    exact List.take_prefix k p
  · exact mem_ancestorsUnder_prefix root p a h

/-- Under the tree contract (no relative path a proper prefix of another,
no empty relative path), no destination is among the kept ancestors of
any destination. -/
theorem destOf_not_mem_anc (conf : EnvConf) (e1 e2 : Entry)
    (hpre : e1.rel <+: e2.rel → e1.rel = e2.rel) (hne : e2.rel ≠ []) :
    destOf conf e1 ∉ anc conf e2 := by
  intro hmem
  obtain ⟨hp, _⟩ := mem_ancestorsUnder_inv hmem
  have h1 : destOf conf e1 <+: destOf conf e2 :=
    hp.trans (List.dropLast_prefix (destOf conf e2))
  have h2 : e1.rel <+: e2.rel := by
    unfold destOf at h1
    exact (List.prefix_append_right_inj conf.destRoot).mp h1
  have h3 : e1.rel = e2.rel := hpre h2
  have h4 := hp.length_le
  rw [List.length_dropLast] at h4
  have h5 : (destOf conf e1).length = (destOf conf e2).length := by
    unfold destOf
    rw [List.length_append, List.length_append, h3]
  have h6 : 0 < e2.rel.length := List.length_pos.mpr hne
  have h7 : (destOf conf e2).length = conf.destRoot.length + e2.rel.length :=
    List.length_append _ _
  omega

/-- When every kept ancestor already exists, the ancestor loop returns
the filesystem unchanged and its trace is pure permission
renormalization. -/
theorem processAncestors_noop (conf : EnvConf) (db : OsDb) :
    ∀ (l : List FsPath) (fs : FS),
      (∀ a ∈ l, fs.pathExists a = true) →
      (l ≠ [] → FixOk conf db) →
      ∃ tr, processAncestors conf db fs l = .done fs tr ∧ AllChmod tr := by
  intro l
  induction l with
  | nil =>
    intro fs _ _
    exact ⟨[], rfl, AllChmod_nil⟩
  | cons a rest ih =>
    intro fs hex hfix
    obtain ⟨u, g, hfu⟩ := hfix (by simp)
    obtain ⟨tr2, hrec, hall⟩ :=
      ih fs (fun b hb => hex b (List.mem_cons_of_mem a hb)) (fun _ => ⟨u, g, hfu⟩)
    refine ⟨([] ++ [Op.chmod a]) ++ tr2, ?_, ?_⟩
    · unfold processAncestors
      rw [if_pos (hex a (List.mem_cons_self a rest))]
      simp only [pbind_done]
      unfold applyPerms
      rw [hfu]
      simp only [pbind_done]
      rw [hrec]
      simp only [padd_done]
    · exact AllChmod_append (AllChmod_append AllChmod_nil (AllChmod_single a)) hall

/-- When the rendered text already sits at the destination,
`check_existing` reports up to date, with no backup. -/
theorem check_existing_noop (fs : FS) (d : FsPath) (rnd : String)
    (hdir : fs.isDirB d = false) (hlook : fs.lookup d = some (.text rnd)) :
    check_existing fs d rnd = .ok true fs [] := by
  unfold check_existing
  rw [hdir, hlook]
  simp

/-- A text entry whose rendered output already sits at its destination
is reconciled without any mutation: the step returns the filesystem
unchanged, defers nothing, and only renormalizes permissions. -/
theorem walkStep_noop_text (w : World) (conf : EnvConf) (n : String) (fs : FS)
    (e : Entry) (s out : String)
    (hre : e.readErr = false) (hct : e.content = .text s)
    (hrd : render_entry w conf n s = some out)
    (hlook : fs.lookup (destOf conf e) = some (.text out))
    (hdir : fs.isDirB (destOf conf e) = false)
    (hex : ∀ a ∈ anc conf e, fs.pathExists a = true)
    (hfix : FixOk conf w.db) :
    ∃ tr, walkStep w conf n fs e = .done (fs, none) tr ∧ AllChmod tr := by
  obtain ⟨u, g, hfu⟩ := hfix
  obtain ⟨tr1, hanc, hall⟩ :=
    processAncestors_noop conf w.db
      (ancestorsUnder conf.destRoot (destOf conf e).dropLast) fs hex
      (fun _ => ⟨u, g, hfu⟩)
  have hgc : get_contents e = .ok (some s) := by
    unfold get_contents
    rw [hre, hct]
    simp
  refine ⟨(tr1 ++ []) ++ [Op.chmod (destOf conf e)], ?_, ?_⟩
  · unfold walkStep
    rw [hanc]
    simp only [pbind_done]
    rw [hgc]
    dsimp only
    rw [hrd]
    dsimp only
    rw [check_existing_noop fs (destOf conf e) out hdir hlook]
    dsimp only
    rw [if_pos rfl]
    unfold applyPerms
    rw [hfu]
    simp only [pbind_done]
  · exact AllChmod_append (AllChmod_append hall AllChmod_nil)
      (AllChmod_single (destOf conf e))

/-- A non-UTF-8 entry whose ancestors already exist is only deferred: the
step returns the filesystem unchanged with a chmod-only trace, pushing
the blob for the second loop. -/
theorem walkStep_noop_blob (w : World) (conf : EnvConf) (n : String) (fs : FS)
    (e : Entry) (b : List Nat)
    (hre : e.readErr = false) (hct : e.content = .blob b)
    (hex : ∀ a ∈ anc conf e, fs.pathExists a = true)
    (hfixanc : anc conf e ≠ [] → FixOk conf w.db) :
    ∃ tr, walkStep w conf n fs e =
        .done (fs, some (Content.blob b, destOf conf e)) tr ∧ AllChmod tr := by
  obtain ⟨tr1, hanc, hall⟩ :=
    processAncestors_noop conf w.db
      (ancestorsUnder conf.destRoot (destOf conf e).dropLast) fs hex hfixanc
  have hgc : get_contents e = .ok none := by
    unfold get_contents
    rw [hre, hct]
    simp
  refine ⟨tr1, ?_, hall⟩
  unfold walkStep
  rw [hanc]
  simp only [pbind_done]
  rw [hgc]
  dsimp only
  rw [hct]

/-- A deferred blob whose destination already holds the same bytes is
skipped entirely (the `continue`), with an empty trace. -/
theorem blobStep_noop (w : World) (conf : EnvConf) (fs : FS)
    (bc : Content × FsPath) (hlk : fs.lookup bc.2 = some bc.1) :
    blobStep w conf fs bc = .done fs [] := by
  unfold blobStep
  rw [hlk]
  dsimp only
  rw [if_pos rfl]

/-- The second loop over already-synchronized blobs changes nothing and
records nothing. -/
theorem phase2_noop (w : World) (conf : EnvConf) :
    ∀ (pushes : List (Content × FsPath)) (fs : FS),
      (∀ bc ∈ pushes, fs.lookup bc.2 = some bc.1) →
      phase2 w conf fs pushes = .done fs [] := by
  intro pushes
  induction pushes with
  | nil => intro fs _; rfl
  | cons bc rest ih =>
    intro fs hlk
    unfold phase2
    rw [blobStep_noop w conf fs bc (hlk bc (List.mem_cons_self bc rest))]
    simp only [pbind_done]
    rw [ih fs (fun x hx => hlk x (List.mem_cons_of_mem bc hx))]
    rfl

/-- The first loop over a fully synchronized context returns the
filesystem unchanged with a chmod-only trace; the pushed blobs are
exactly the non-UTF-8 entries. -/
theorem phase1_noop (w : World) (conf : EnvConf) (n : String) :
    ∀ (entries : List Entry) (fs : FS),
      (∀ e ∈ entries, e.readErr = false) →
      (∀ e ∈ entries, ∀ a ∈ anc conf e, fs.pathExists a = true) →
      (∀ e ∈ entries, (anc conf e ≠ [] ∨ ∃ s, e.content = .text s) →
        FixOk conf w.db) →
      (∀ e ∈ entries, ∀ s, e.content = .text s →
        ∃ out, render_entry w conf n s = some out ∧
          fs.lookup (destOf conf e) = some (.text out) ∧
          fs.isDirB (destOf conf e) = false) →
      ∃ pushes tr, phase1 w conf n fs entries = .done (fs, pushes) tr ∧
        AllChmod tr ∧
        ∀ bc ∈ pushes, ∃ e ∈ entries, ∃ b, e.content = .blob b ∧
          bc = (Content.blob b, destOf conf e) := by
  intro entries
  induction entries with
  | nil =>
    intro fs _ _ _ _
    exact ⟨[], [], rfl, AllChmod_nil, fun bc hbc => absurd hbc (List.not_mem_nil bc)⟩
  | cons e rest ih =>
    intro fs hread hexan hfixn htext
    obtain ⟨pushes, tr2, hrec, hall2, hchar⟩ :=
      ih fs (fun x hx => hread x (List.mem_cons_of_mem e hx))
        (fun x hx => hexan x (List.mem_cons_of_mem e hx))
        (fun x hx => hfixn x (List.mem_cons_of_mem e hx))
        (fun x hx => htext x (List.mem_cons_of_mem e hx))
    have hre := hread e (List.mem_cons_self e rest)
    cases hct : e.content with
    | text s =>
      obtain ⟨out, hrd, hlook, hdir⟩ := htext e (List.mem_cons_self e rest) s hct
      have hfix : FixOk conf w.db :=
        hfixn e (List.mem_cons_self e rest) (Or.inr ⟨s, hct⟩)
      obtain ⟨tr0, hstep, hall0⟩ :=
        walkStep_noop_text w conf n fs e s out hre hct hrd hlook hdir
          (hexan e (List.mem_cons_self e rest)) hfix
      refine ⟨pushes, tr0 ++ tr2, ?_, AllChmod_append hall0 hall2, ?_⟩
      · unfold phase1
        rw [hstep]
        simp only [pbind_done]
        try dsimp only
        rw [hrec]
        simp only [pbind_done, padd_done, Option.toList_none, List.nil_append]
      · intro bc hbc
        obtain ⟨x, hx, bb, hbb, hbc2⟩ := hchar bc hbc
        exact ⟨x, List.mem_cons_of_mem e hx, bb, hbb, hbc2⟩
    | blob b =>
      have hfixanc : anc conf e ≠ [] → FixOk conf w.db := fun hne =>
        hfixn e (List.mem_cons_self e rest) (Or.inl hne)
      obtain ⟨tr0, hstep, hall0⟩ :=
        walkStep_noop_blob w conf n fs e b hre hct
          (hexan e (List.mem_cons_self e rest)) hfixanc
      refine ⟨(Content.blob b, destOf conf e) :: pushes, tr0 ++ tr2, ?_,
        AllChmod_append hall0 hall2, ?_⟩
      · unfold phase1
        rw [hstep]
        simp only [pbind_done]
        try dsimp only
        rw [hrec]
        simp only [pbind_done, padd_done, Option.toList_some, List.singleton_append]
      · intro bc hbc
        rcases List.mem_cons.mp hbc with hbc | hbc
        · exact ⟨e, List.mem_cons_self e rest, b, hct, hbc⟩
        · obtain ⟨x, hx, bb, hbb, hbc2⟩ := hchar bc hbc
          exact ⟨x, List.mem_cons_of_mem e hx, bb, hbb, hbc2⟩

/-- A whole context walk over a fully synchronized context changes
nothing and only renormalizes permissions. -/
theorem walk_directory_noop (w : World) (conf : EnvConf) (c : CtxRun) (fs : FS)
    (hread : ∀ e ∈ c.entries, e.readErr = false)
    (hexan : ∀ e ∈ c.entries, ∀ a ∈ anc conf e, fs.pathExists a = true)
    (hfixn : ∀ e ∈ c.entries, (anc conf e ≠ [] ∨ ∃ s, e.content = .text s) →
      FixOk conf w.db)
    (htext : ∀ e ∈ c.entries, ∀ s, e.content = .text s →
      ∃ out, render_entry w conf c.name s = some out ∧
        fs.lookup (destOf conf e) = some (.text out) ∧
        fs.isDirB (destOf conf e) = false)
    (hblob : ∀ e ∈ c.entries, ∀ b, e.content = .blob b →
      fs.lookup (destOf conf e) = some (.blob b)) :
    ∃ tr, walk_directory w conf c fs = .done fs tr ∧ AllChmod tr := by
  obtain ⟨pushes, tr1, hp1, hall1, hchar⟩ :=
    phase1_noop w conf c.name c.entries fs hread hexan hfixn htext
  have hlk : ∀ bc ∈ pushes, fs.lookup bc.2 = some bc.1 := by
    intro bc hbc
    obtain ⟨e, he, b, hb, hbc2⟩ := hchar bc hbc
    rw [hbc2]
    exact hblob e he b hb
  refine ⟨tr1, ?_, hall1⟩
  unfold walk_directory
  rw [hp1]
  simp only [pbind_done]
  try dsimp only
  rw [phase2_noop w conf pushes fs hlk]
  simp only [padd_done, List.append_nil]

/-- The context loop over fully synchronized contexts changes nothing
and only renormalizes permissions. -/
theorem runContexts_noop (w : World) (conf : EnvConf) :
    ∀ (ctxs : List CtxRun) (fs : FS),
      (∀ c ∈ ctxs, c.rootOk = true) →
      (∀ r ∈ records ctxs, r.2.readErr = false) →
      (∀ r ∈ records ctxs, ∀ a ∈ anc conf r.2, fs.pathExists a = true) →
      (∀ r ∈ records ctxs, (anc conf r.2 ≠ [] ∨ ∃ s, r.2.content = .text s) →
        FixOk conf w.db) →
      (∀ r ∈ records ctxs, ∀ s, r.2.content = .text s →
        ∃ out, render_entry w conf r.1 s = some out ∧
          fs.lookup (destOf conf r.2) = some (.text out) ∧
          fs.isDirB (destOf conf r.2) = false) →
      (∀ r ∈ records ctxs, ∀ b, r.2.content = .blob b →
        fs.lookup (destOf conf r.2) = some (.blob b)) →
      ∃ tr, runContexts w conf fs ctxs = .done fs tr ∧ AllChmod tr := by
  intro ctxs
  induction ctxs with
  | nil =>
    intro fs _ _ _ _ _ _
    exact ⟨[], rfl, AllChmod_nil⟩
  | cons c rest ih =>
    intro fs hroot hread hexan hfixn htext hblob
    obtain ⟨tr1, hwd, hall1⟩ :=
      walk_directory_noop w conf c fs
        (fun e he => hread (c.name, e) (mem_records_head he))
        (fun e he => hexan (c.name, e) (mem_records_head he))
        (fun e he => hfixn (c.name, e) (mem_records_head he))
        (fun e he => htext (c.name, e) (mem_records_head he))
        (fun e he => hblob (c.name, e) (mem_records_head he))
    obtain ⟨tr2, hrec, hall2⟩ :=
      ih fs (fun x hx => hroot x (List.mem_cons_of_mem c hx))
        (fun r hr => hread r (mem_records_tail hr))
        (fun r hr => hexan r (mem_records_tail hr))
        (fun r hr => hfixn r (mem_records_tail hr))
        (fun r hr => htext r (mem_records_tail hr))
        (fun r hr => hblob r (mem_records_tail hr))
    refine ⟨tr1 ++ tr2, ?_, AllChmod_append hall1 hall2⟩
    unfold runContexts
    rw [hroot c (List.mem_cons_self c rest), if_pos rfl]
    rw [hwd]
    simp only [pbind_done]
    rw [hrec]
    simp only [padd_done]

/-- C5 (amended): when the records of the run have pairwise-distinct
destinations, no backup path equal to a destination, and relative paths
forming a tree of files (no proper prefixes, none empty), a second run
of the pipeline from the state a first successful run produced returns
that state unchanged — zero `.bak` files are created and every
destination file's bytes stay bit-identical — and its whole trace is
permission renormalization (`chmod`/`chown`) only. -/
theorem c5_second_run_noop (w : World) (conf : EnvConf) (gw : GitWorld)
    (ctxs : List CtxRun) (fs0 fs1 : FS) (tr1 : List Op)
    (hclash : RecordsNoClash conf (records ctxs))
    (h1 : run w conf gw ctxs fs0 = .done fs1 tr1) :
    ∃ tr2, run w conf gw ctxs fs1 = .done fs1 tr2 ∧
      ∀ op ∈ tr2, ∃ p, op = Op.chmod p := by
  unfold run at h1 ⊢
  cases hst : conf.getEnv "SERVER_SYNC_REPO_STORAGE" with
  | none =>
    rw [hst] at h1
    dsimp only at h1
    cases h1
  | some st =>
    rw [hst] at h1
    dsimp only at h1 ⊢
    cases hsy : sync_repository conf gw with
    | panicked =>
      rw [hsy] at h1
      dsimp only at h1
      cases h1
    | failed m =>
      rw [hsy] at h1
      dsimp only at h1
      cases h1
    | ok =>
      rw [hsy] at h1
      dsimp only at h1 ⊢
      have rf := runContexts_done_inv w conf ctxs fs0 fs1 tr1 h1
      have hnotdir : ∀ r ∈ records ctxs, ∀ s, r.2.content = .text s →
          fs1.isDirB (destOf conf r.2) = false := by
        intro r hr s hs
        cases hd : fs1.isDirB (destOf conf r.2) with
        | false => rfl
        | true =>
          rcases rf.dirsChar (destOf conf r.2) hd with hd0 | ⟨r2, hr2, hmem⟩
          · rw [rf.textNotDir r hr s hs] at hd0
            cases hd0
          · exact absurd hmem (destOf_not_mem_anc conf r.2 r2.2
              (hclash.2.2.1 r hr r2 hr2) (hclash.2.2.2 r2 hr2))
      exact runContexts_noop w conf ctxs fs1 rf.rootsOk rf.readOk rf.ancDone
        rf.fixNeeded
        (fun r hr s hs =>
          let ⟨out, hrd, hlk⟩ := (rf.synced hclash r hr).1 s hs
          ⟨out, hrd, hlk, hnotdir r hr s hs⟩)
        (fun r hr b hb => (rf.synced hclash r hr).2 b hb)

/-- Witness for C5: after the demo run has written `/dst/f.txt`, a second
run from the resulting state returns it unchanged and only chmods. -/
theorem c5_second_run_noop_witness :
    RecordsNoClash demoConf (records demoCtxs) ∧
    ∃ tr2, run demoWorld demoConf demoGit demoCtxs
        (demoFS.setFile ["dst", "f.txt"] (.text "x")) =
      .done (demoFS.setFile ["dst", "f.txt"] (.text "x")) tr2 ∧
      ∀ op ∈ tr2, ∃ p, op = Op.chmod p :=
  ⟨by unfold RecordsNoClash; decide, c5_second_run_noop demoWorld demoConf demoGit demoCtxs demoFS
    (demoFS.setFile ["dst", "f.txt"] (.text "x"))
    [Op.chmod ["dst"], Op.createFile ["dst", "f.txt"] (.text "x"),
     Op.chmod ["dst", "f.txt"]]
    (by unfold RecordsNoClash; decide) rfl⟩

/-- Two contexts whose single entries map to the same destination
`/dst/f` — the configuration of scenario 6 of the spec. -/
def clashCtxs : List CtxRun :=
  [{ name := "a", rootOk := true,
     entries := [{ rel := ["f"], content := .text "one", readErr := false }] },
   { name := "b", rootOk := true,
     entries := [{ rel := ["f"], content := .text "two", readErr := false }] }]

/-- C5 counterexample: with two contexts mapping entries to the same
destination (the spec's own shared-destination scenario), the second run
is not a per-file no-op on an unchanged source tree: it again renames
`/dst/f` to the backup `/dst/f.bak` twice and rewrites `/dst/f` twice —
so the second run does produce `.bak` files.  The claim as stated, with
no clash-freedom proviso, is false; `c5_second_run_noop` proves the
amended form. -/
theorem c5_shared_destination_not_idempotent :
    destOf demoConf { rel := ["f"], content := .text "one", readErr := false } =
      destOf demoConf { rel := ["f"], content := .text "two", readErr := false } ∧
    run demoWorld demoConf demoGit clashCtxs demoFS =
      .done { dirs := [[], ["dst"]],
              files := [(["dst", "f"], .text "two"),
                        (["dst", "f.bak"], .text "one")] }
        [Op.chmod ["dst"], Op.createFile ["dst", "f"] (.text "one"),
         Op.chmod ["dst", "f"], Op.chmod ["dst"],
         Op.renameFile ["dst", "f"] ["dst", "f.bak"],
         Op.createFile ["dst", "f"] (.text "two"), Op.chmod ["dst", "f"]] ∧
    run demoWorld demoConf demoGit clashCtxs
      { dirs := [[], ["dst"]],
        files := [(["dst", "f"], .text "two"),
                  (["dst", "f.bak"], .text "one")] } =
      .done { dirs := [[], ["dst"]],
              files := [(["dst", "f"], .text "two"),
                        (["dst", "f.bak"], .text "one")] }
        [Op.chmod ["dst"], Op.renameFile ["dst", "f"] ["dst", "f.bak"],
         Op.createFile ["dst", "f"] (.text "one"), Op.chmod ["dst", "f"],
         Op.chmod ["dst"], Op.renameFile ["dst", "f"] ["dst", "f.bak"],
         Op.createFile ["dst", "f"] (.text "two"), Op.chmod ["dst", "f"]] :=
  ⟨rfl, rfl, rfl⟩

end ServerSync
